import Mathlib

/-!
Verification of the `markdown-for-agents` HTML→Markdown pipeline.

This file shallowly embeds the core pipeline of the repository:
the renderer (`packages/core/src/core/renderer.ts`), the section-aware
block deduplicator (`packages/core/src/core/dedup.ts`), the content hash
(`packages/core/src/core/hash.ts`), the rule-dispatch tree walker
(`packages/core/src/core/walker.ts`), the built-in conversion rules
(`packages/core/src/rules/*.ts`) and the extractor
(`packages/core/src/extract/*.ts`), and proves properties of the embedded
definitions.

Strings are modelled as `List Char` internally (`String` in Lean 4.14 is a
structure wrapping `List Char`, and JavaScript string indices are UTF-16
code units; for the Basic-Multilingual-Plane inputs treated here the two
coincide).  The JavaScript whitespace class `\s` (used by `trim`,
`trimEnd`, `/\s+/`, `/^\s+$/`, `/\S {2}$/`) is modelled by the six ASCII
whitespace characters; JavaScript additionally treats some exotic Unicode
code points as whitespace, which no property here depends on.
-/

namespace MD

/-- JavaScript whitespace class `\s`, restricted to ASCII (see header). -/
def isWS (c : Char) : Bool :=
  c == ' ' || c == '\t' || c == '\n' || c == '\r' || c == '\x0b' || c == '\x0c'

/-- The character class `[ \t]` used by the renderer's whitespace-line regex. -/
def isSpTab (c : Char) : Bool :=
  c == ' ' || c == '\t'

/-- Leading-whitespace trim (the left half of JavaScript `String.trim`). -/
def trimL (s : List Char) : List Char := s.dropWhile isWS

/-- Trailing-whitespace trim (JavaScript `String.trimEnd` / `replace(/\s+$/,'')`). -/
def trimR (s : List Char) : List Char := (s.reverse.dropWhile isWS).reverse

/-- JavaScript `String.trim`. -/
def trimC (s : List Char) : List Char := trimL (trimR s)

/-- The maximal run of trailing whitespace of a line. -/
def trailWs (l : List Char) : List Char := (l.reverse.takeWhile isWS).reverse

/-- A line's trailing whitespace is either empty or exactly the two-space
hard-break marker. -/
def trailOK (l : List Char) : Prop := trailWs l = [] ∨ trailWs l = [' ', ' ']

/-- JavaScript `s.split('\n')`: the list of `'\n'`-separated lines.
Always non-empty; lines do not contain `'\n'`. -/
def linesOf : List Char → List (List Char)
  | [] => [[]]
  | c :: t =>
    if c == '\n' then [] :: linesOf t
    else (c :: (linesOf t).headD []) :: (linesOf t).tail

/-- JavaScript `lines.join('\n')`, the inverse of `linesOf`. -/
def joinLines : List (List Char) → List Char
  | [] => []
  | [l] => l
  | l :: ls => l ++ '\n' :: joinLines ls

/-! ## Renderer (`packages/core/src/core/renderer.ts`)

```
export function render(raw: string): string {
    return (
        raw
            .replaceAll(/\r\n?/g, '\n')
            .replaceAll(/\n[ \t]+\n/g, '\n\n')   // whitespace-only lines
            .replaceAll(/\n{3,}/g, '\n\n')       // 3+ newlines → 2
            .split('\n')
            .map(line => {
                if (/\S {2}$/.test(line)) {
                    return line.replace(/\s+$/, '') + '  ';
                }
                return line.trimEnd();
            })
            .join('\n')
            .trim() + '\n'
    );
}
```
-/

/-- `replaceAll(/\r\n?/g, '\n')`: the regex is greedy, so `\r\n` becomes one
`\n` and a lone `\r` becomes `\n`. -/
def normNL : List Char → List Char
  | [] => []
  | '\r' :: '\n' :: t => '\n' :: normNL t
  | '\r' :: t => '\n' :: normNL t
  | c :: t => c :: normNL t

/- `replaceAll(/\n[ \t]+\n/g, '\n\n')`, written as a left-to-right scanner.
`cwA` is the state "not inside a candidate match"; `cwB ws` is the state
"a `'\n'` followed by the `[ \t]`-run `ws` is pending".  When the pending
run is non-empty and a `'\n'` arrives, the match `\n[ \t]+\n` is replaced
by `\n\n` and — exactly like `replaceAll`, which resumes after the matched
text — scanning resumes in state `cwA`, so the consumed `'\n'` cannot start
a new match. -/
mutual

def cwA : List Char → List Char
  | [] => []
  | c :: t => if c == '\n' then cwB [] t else c :: cwA t

def cwB (ws : List Char) : List Char → List Char
  | [] => '\n' :: ws
  | c :: t =>
    if isSpTab c then cwB (ws ++ [c]) t
    else if c == '\n' then
      if ws.isEmpty then '\n' :: cwB [] t
      else '\n' :: '\n' :: cwA t
    else '\n' :: (ws ++ c :: cwA t)

end

/-- The replacement text for a run of `k` consecutive newlines under
`replaceAll(/\n{3,}/g, '\n\n')`: runs of three or more collapse to two,
shorter runs are untouched. -/
def emitNl (k : Nat) : List Char :=
  List.replicate (if 3 ≤ k then 2 else k) '\n'

/-- `replaceAll(/\n{3,}/g, '\n\n')` as a left-to-right scanner; `k` counts
the pending newline run (the matches of the regex are exactly the maximal
newline runs of length ≥ 3, each replaced by two newlines). -/
def cnGo (k : Nat) : List Char → List Char
  | [] => emitNl k
  | c :: t => if c == '\n' then cnGo (k + 1) t else emitNl k ++ c :: cnGo 0 t

/-- `/\S {2}$/.test(line)`: the line ends in a non-whitespace character
followed by exactly two spaces (a third trailing space would make the
`\S` position a space). -/
def hardBreakEnd (l : List Char) : Bool :=
  match l.reverse with
  | c1 :: c2 :: c3 :: _ => c1 == ' ' && c2 == ' ' && !isWS c3
  | _ => false

/-- The per-line step of `render`: keep a hard-break marker (exactly two
trailing spaces after a non-space), otherwise trim trailing whitespace. -/
def fixLine (l : List Char) : List Char :=
  if hardBreakEnd l then trimR l ++ [' ', ' '] else trimR l

/-- `render`, on character lists. -/
def renderL (raw : List Char) : List Char :=
  trimC (joinLines ((linesOf (cnGo 0 (cwA (normNL raw)))).map fixLine)) ++ ['\n']

/-- `render` (`renderer.ts`). -/
def render (raw : String) : String := String.mk (renderL raw.data)

/-- The string contains a run of three or more consecutive newlines
(sliding three-character window). -/
def hasTriple : List Char → Bool
  | c1 :: c2 :: c3 :: t => (c1 == '\n' && c2 == '\n' && c3 == '\n') || hasTriple (c2 :: c3 :: t)
  | _ => false

/-- After skipping a `[ \t]`-run, the next character is a `'\n'`. -/
def pWsNl (u : List Char) : Bool :=
  (u.dropWhile isSpTab).headD 'x' == '\n'

/-- Just after a `'\n'`: a non-empty `[ \t]`-run followed by another `'\n'`
begins here — the tail of a `/\n[ \t]+\n/` match. -/
def nlWsNlHere (t : List Char) : Bool :=
  !(t.takeWhile isSpTab).isEmpty && pWsNl t

/-- The string contains a match of `/\n[ \t]+\n/`. -/
def hasNlWsNl : List Char → Bool
  | [] => false
  | c :: t => (c == '\n' && nlWsNlHere t) || hasNlWsNl t

/-- Some line of the string is non-empty but consists of whitespace only. -/
def hasWsOnlyLine (s : List Char) : Bool :=
  (linesOf s).any (fun l => !l.isEmpty && l.all isWS)

/-- A four-line window whose two middle lines are empty: joining such lines
with `'\n'` is what produces a `"\n\n\n"` run. -/
def hasEE : List (List Char) → Bool
  | _ :: b :: c :: d :: r => (b.isEmpty && c.isEmpty) || hasEE (b :: c :: d :: r)
  | _ => false

/-- The non-empty lines of a line list. -/
def filterNE (L : List (List Char)) : List (List Char) := L.filter (fun l => !l.isEmpty)

/-- The string starts with a newline. -/
def startNl (l : List Char) : Bool := l.headD 'x' == '\n'

/-- The string ends with a newline. -/
def endNl (l : List Char) : Bool := l.reverse.headD 'x' == '\n'

/-- The string contains two consecutive newlines (a `/\n\n+/` separator
match), as a sliding two-character window. -/
def hasNN : List Char → Bool
  | c1 :: c2 :: t => (c1 == '\n' && c2 == '\n') || hasNN (c2 :: t)
  | _ => false

/-! ## Deduplicator (`packages/core/src/core/dedup.ts`) -/

/-- `DEFAULT_MIN_LENGTH` (`dedup.ts`). -/
def DEFAULT_MIN_LENGTH : Nat := 10

/-- `markdown.split(/\n\n+/)` as a left-to-right scanner: the separators of
the split are exactly the maximal runs of two or more newlines (the
leftmost-greedy matches of `/\n\n+/`); `cur` is the block being
accumulated and `run` the pending newline run. -/
def sbGo (cur : List Char) (run : Nat) : List Char → List (List Char)
  | [] => if 2 ≤ run then [cur, []] else [cur ++ List.replicate run '\n']
  | c :: t =>
    if c == '\n' then sbGo cur (run + 1) t
    else if 2 ≤ run then cur :: sbGo [c] 0 t
    else sbGo (cur ++ List.replicate run '\n' ++ [c]) 0 t

/-- `markdown.split(/\n\n+/)`. -/
def splitBlocks (s : List Char) : List (List Char) := sbGo [] 0 s

/- `replaceAll(/\s+/g, ' ')`: collapse every whitespace run to one space.
`fpSkip` is the state "inside a whitespace run that has already emitted
its space". -/
mutual

def fpCollapse : List Char → List Char
  | [] => []
  | c :: t => if isWS c then ' ' :: fpSkip t else c :: fpCollapse t

def fpSkip : List Char → List Char
  | [] => []
  | c :: t => if isWS c then fpSkip t else c :: fpCollapse t

end

/-- `normalize` (`dedup.ts`): lowercase, then collapse whitespace runs to
single spaces.  `Char.toLower` models JavaScript `toLowerCase` (they agree
on ASCII). -/
def normalizeFp (s : List Char) : List Char := fpCollapse (s.map Char.toLower)

/-- `HEADING_RE = /^#{1,6}\s/` applied to a (trimmed) block: the regex
matches iff the maximal leading `#`-run has length 1–6 and is followed by a
whitespace character. -/
def isHeadingT (t : List Char) : Bool :=
  let k := (t.takeWhile (· == '#')).length
  decide (1 ≤ k) && decide (k ≤ 6) &&
    (match t.drop k with
     | c :: _ => isWS c
     | [] => false)

/-- A block whose trim is empty (skipped by the dedup loop). -/
def isBlankB (b : List Char) : Bool := (trimC b).isEmpty

/-- `findNextNonEmptyIndex` (`dedup.ts`): drop leading blank blocks. -/
def skipEmptyB : List (List Char) → List (List Char)
  | [] => []
  | b :: bs => if isBlankB b then skipEmptyB bs else b :: bs

/-- The cursor loop of `deduplicateBlocks` (`dedup.ts`, lines 192–215,
with `processHeadingBlock` and `processContentBlock` inlined at their
single call sites).  `seen` is the fingerprint set (a list; only
membership is used).  The loop advances at least one block per iteration;
`fuel` (instantiated with the number of blocks) makes that structural and
plays no other role. -/
def dedupGo (minLength : Nat) : Nat → List (List Char) → List (List Char) → List (List Char)
  | 0, _, _ => []
  | _ + 1, _, [] => []
  | fuel + 1, seen, b :: bs =>
    let t := trimC b
    if t.isEmpty then dedupGo minLength fuel seen bs
    else if isHeadingT t then
      match skipEmptyB bs with
      | [] =>
        -- standalone heading (no following non-empty block): always keep
        b :: dedupGo minLength fuel seen bs
      | nb :: rest =>
        let nt := trimC nb
        if isHeadingT nt then
          -- standalone heading (next non-empty block is a heading): keep
          b :: dedupGo minLength fuel seen bs
        else
          -- section: heading + content, compound fingerprint
          let sfp := normalizeFp (t ++ ' ' :: nt)
          if minLength ≤ sfp.length ∧ sfp ∈ seen then
            dedupGo minLength fuel seen rest
          else
            let seen1 := if minLength ≤ sfp.length then sfp :: seen else seen
            let cfp := normalizeFp nt
            let seen2 := if minLength ≤ cfp.length then cfp :: seen1 else seen1
            b :: nb :: dedupGo minLength fuel seen2 rest
    else
      -- non-heading block, deduplicated individually
      let fp := normalizeFp t
      if fp.length < minLength then b :: dedupGo minLength fuel seen bs
      else if fp ∈ seen then dedupGo minLength fuel seen bs
      else b :: dedupGo minLength fuel (fp :: seen) bs

/-- `kept.join('\n\n')`. -/
def interBlocks : List (List Char) → List Char
  | [] => []
  | [b] => b
  | b :: bs => b ++ '\n' :: '\n' :: interBlocks bs

/-- `kept.join('\n\n').trim() + '\n'` (`dedup.ts`, line 214). -/
def joinBlocks (ks : List (List Char)) : List Char := trimC (interBlocks ks) ++ ['\n']

/-- The kept-block list of `deduplicateBlocks markdown minLength`. -/
def dedupKept (markdown : String) (minLength : Nat) : List (List Char) :=
  let blocks := splitBlocks markdown.data
  dedupGo minLength blocks.length [] blocks

/-- `deduplicateBlocks` (`dedup.ts`); the source's `minLength` parameter
defaults to `DEFAULT_MIN_LENGTH`. -/
def deduplicateBlocks (markdown : String) (minLength : Nat) : String :=
  String.mk (joinBlocks (dedupKept markdown minLength))

/-! ## Content hash (`packages/core/src/core/hash.ts`) -/

/-- A base-36 digit as produced by JavaScript `Number.toString(36)`
(`0`–`9` then `a`–`z`). -/
def b36digit (d : Nat) : Char :=
  if d < 10 then Char.ofNat (48 + d) else Char.ofNat (87 + d)

/-- Base-36 digits of `n`, most significant first; `fuel ≥ n` suffices
(the argument shrinks by a factor of 36 per step). -/
def toB36Go : Nat → Nat → List Char → List Char
  | 0, n, acc => b36digit n :: acc
  | fuel + 1, n, acc =>
    if n < 36 then b36digit n :: acc
    else toB36Go fuel (n / 36) (b36digit (n % 36) :: acc)

/-- JavaScript `n.toString(36)` for a natural number. -/
def toB36 (n : Nat) : List Char := toB36Go n n []

/-- The numeric value of a base-36 digit character. -/
def b36val (c : Char) : Nat :=
  if c.toNat < 97 then c.toNat - 48 else c.toNat - 87

/-- The value of a base-36 digit string (left fold), inverse of `toB36`. -/
def ofB36 (ds : List Char) : Nat :=
  ds.foldl (fun a c => a * 36 + b36val c) 0

/-- The 32-bit FNV-1a loop of `contentHash`: `h ^= codePoint; h = imul(h, 0x01000193)`,
with JavaScript's 32-bit `imul` and final `>>> 0` modelled by arithmetic
modulo `2^32`. -/
def fnv1a (s : List Char) : Nat :=
  s.foldl (fun h c => ((h ^^^ c.toNat) * 16777619) % 4294967296) 2166136261

/-- `contentHash` (`hash.ts`): length in base 36, a hyphen, then the
FNV-1a hash in base 36. -/
def contentHash (str : String) : String :=
  String.mk (toB36 str.data.length ++ '-' :: toB36 (fnv1a str.data))

/-! ## Data model (`types.ts`, spec §3)

The spec's node model: a tagged union of `Document` (root, ordered
children), `Element` (tag name, attribute map, ordered children) and
`Text` (character data).  The parent back-reference of the source's
`domhandler` nodes is not stored; the walker and the rules receive the
parent explicitly at every use site, which is the only way the source
reads it. -/

inductive Node where
  | doc (children : List Node)
  | elem (name : String) (attribs : List (String × String)) (children : List Node)
  | text (data : String)

/-- The `children` field (`Text` has none). -/
def childrenOf : Node → List Node
  | .doc cs => cs
  | .elem _ _ cs => cs
  | .text _ => []

/-- `domhandler.isTag`. -/
def isTag : Node → Bool
  | .elem _ _ _ => true
  | _ => false

/-- Attribute lookup, `el.attribs[k]` (`undefined` when absent). -/
def attrOf (attribs : List (String × String)) (k : String) : Option String :=
  attribs.lookup k

/-- `el.attribs[k] || dflt`: JavaScript `||` treats both `undefined` and
the empty string as falsy. -/
def attrOr (attribs : List (String × String)) (k : String) (dflt : String) : String :=
  match attrOf attribs k with
  | none => dflt
  | some v => if v = "" then dflt else v

/-- `ResolvedOptions` (`types.ts`), restricted to the fields the walker and
the built-in rules read.  The enum-valued options (`headingStyle` etc.) are
strings in the source and are kept as strings. -/
structure ResolvedOptions where
  baseUrl : String
  headingStyle : String
  bulletChar : String
  codeBlockStyle : String
  fenceChar : String
  strongDelimiter : String
  emDelimiter : String
  linkStyle : String

/-- The backtick character. -/
def btick : Char := Char.ofNat 96

/-- The `DEFAULTS` constant of `converter.ts` (fields the walker reads). -/
def DEFAULTS : ResolvedOptions :=
  { baseUrl := ""
    headingStyle := "atx"
    bulletChar := "-"
    codeBlockStyle := "fenced"
    fenceChar := String.mk [btick]
    strongDelimiter := "**"
    emDelimiter := "*"
    linkStyle := "inlined" }

/-- The result of a rule's `replacement`: a `string`, `null`, or
`undefined` (named "pass"/fall-through by the spec). -/
inductive RResult where
  | str (s : String)
  | nullR
  | pass

/-- `Rule.filter` (`types.ts`): a tag name, a list of tag names, or a
predicate. -/
inductive RFilter where
  | tag (name : String)
  | tags (names : List String)
  | pred (p : Node → Bool)

/-- `RuleContext` (`types.ts`): the element, its parent, the recursive
`convertChildren` callback, the resolved options, and the walker flags. -/
structure RContext where
  node : Node
  parent : Node
  convertChildren : Node → String
  options : ResolvedOptions
  listDepth : Nat
  insidePre : Bool
  insideTable : Bool
  siblingIndex : Nat

/-- `Rule` (`types.ts`); `priority` is optional (`?? 0` at the sort site). -/
structure Rule where
  filter : RFilter
  replacement : RContext → RResult
  priority : Option Int

/-- `WalkerState` (`walker.ts`). -/
structure WalkerState where
  options : ResolvedOptions
  rules : List Rule
  listDepth : Nat
  insidePre : Bool
  insideTable : Bool

/-- `matchesFilter` (`walker.ts`): string filters compare the tag name,
array filters test membership, function filters are applied. -/
def matchesFilter (f : RFilter) (el : Node) : Bool :=
  match f with
  | .tag n => (match el with | .elem m _ _ => m == n | _ => false)
  | .tags ns => (match el with | .elem m _ _ => ns.contains m | _ => false)
  | .pred p => p el

/-- `deriveState` (`walker.ts`): entering `<pre>`/`<table>` sets the
corresponding flag for the subtree; entering `<ul>`/`<ol>` increments
`listDepth`; all other elements keep the state unchanged. -/
def deriveState (el : Node) (st : WalkerState) : WalkerState :=
  match el with
  | .elem name _ _ =>
    let isPre := name == "pre"
    let isTable := name == "table"
    let isList := name == "ul" || name == "ol"
    if !isPre && !isTable && !isList then st
    else
      { st with
        insidePre := st.insidePre || isPre
        insideTable := st.insideTable || isTable
        listDepth := if isList then st.listDepth + 1 else st.listDepth }
  | _ => st

/- `processText`'s `replaceAll(/\s+/g, ' ')` — like `fpCollapse` but
without lowercasing. -/
mutual

def wsCollapse : List Char → List Char
  | [] => []
  | c :: t => if isWS c then ' ' :: wsSkip t else c :: wsCollapse t

def wsSkip : List Char → List Char
  | [] => []
  | c :: t => if isWS c then wsSkip t else c :: wsCollapse t

end

/-- `processText` (`walker.ts`): verbatim inside `<pre>`; dropped inside a
table when whitespace-only (`/^\s+$/`); otherwise whitespace-collapsed. -/
def processTextD (data : List Char) (st : WalkerState) : List Char :=
  if st.insidePre then data
  else if st.insideTable && !data.isEmpty && data.all isWS then []
  else wsCollapse data

/-- The backward sibling scan of `needsSeparator` (`walker.ts`), given the
reversed list of preceding siblings: a text node means no separator, an
element means a separator is needed. -/
def prevIsElem : List Node → Bool
  | [] => false
  | .text _ :: _ => false
  | .elem _ _ _ :: _ => true
  | .doc _ :: rest => prevIsElem rest

/-- `needsSeparator` (`walker.ts`): the accumulated output ends in
non-whitespace and the nearest preceding sibling is an element. -/
def needsSeparator (frags : List String) (children : List Node) (i : Nat) : Bool :=
  match frags.getLast? with
  | none => false
  | some last =>
    match last.data.getLast? with
    | none => false
    | some c => if isWS c then false else prevIsElem ((children.take i).reverse)

/-- The `RuleContext` built by `applyRules` (`walker.ts`): `convertChildren`
recurses into the walker with the derived state. -/
def mkContext (wf : Node → WalkerState → String) (el : Node) (i : Nat) (parent : Node)
    (st : WalkerState) : RContext :=
  { node := el
    parent := parent
    convertChildren := fun n => wf n (deriveState el st)
    options := st.options
    listDepth := st.listDepth
    insidePre := st.insidePre
    insideTable := st.insideTable
    siblingIndex := i }

/-- The rule scan of `applyRules` (`walker.ts`): try each rule in order;
a string or `null` result is returned (`none` models `null`), `undefined`
falls through to the next rule; if no rule fires, recurse into the
element's children with the derived state (the walker `wf` is passed in by
`walk`, already charged with one unit of fuel). -/
def applyRulesGo (wf : Node → WalkerState → String) (el : Node) (i : Nat) (parent : Node)
    (st : WalkerState) : List Rule → Option String
  | [] => some (wf el (deriveState el st))
  | r :: rs =>
    if matchesFilter r.filter el then
      match r.replacement (mkContext wf el i parent st) with
      | .str s => some s
      | .nullR => none
      | .pass => applyRulesGo wf el i parent st rs
    else applyRulesGo wf el i parent st rs

/-- The child loop of `walk` (`walker.ts`): text children are processed by
`processText`; element children go through the rules, a `null` result
emits nothing, and a non-empty fragment may be preceded by a separator
space; other node kinds are skipped. -/
def walkFrags (wf : Node → WalkerState → String) (parent : Node) (st : WalkerState) :
    List Node → Nat → List String → List String
  | [], _, frags => frags
  | c :: cs, i, frags =>
    match c with
    | .text d => walkFrags wf parent st cs (i + 1) (frags ++ [String.mk (processTextD d.data st)])
    | .elem n a gs =>
      match applyRulesGo wf (.elem n a gs) i parent st st.rules with
      | none => walkFrags wf parent st cs (i + 1) frags
      | some r =>
        let frags1 :=
          if r.length > 0 && !st.insidePre && !st.insideTable &&
              needsSeparator frags (childrenOf parent) i then
            frags ++ [" ", r]
          else frags ++ [r]
        walkFrags wf parent st cs (i + 1) frags1
    | .doc _ => walkFrags wf parent st cs (i + 1) frags

/-- `walk` (`walker.ts`).  The source recurses on the actual tree; here
each nested walk (from `convertChildren` or the no-rule fallback) spends
one unit of `fuel`, so any `fuel` larger than the nesting depth of rule
applications yields the source's value. -/
def walk (fuel : Nat) (node : Node) (st : WalkerState) : String :=
  match fuel with
  | 0 => ""
  | f + 1 => String.join (walkFrags (walk f) node st (childrenOf node) 0 [])

/-! ## Built-in rules (`packages/core/src/rules/`) -/

/-- JavaScript `String.trim` on Lean strings. -/
def strTrim (s : String) : String := String.mk (trimC s.data)

/-- JavaScript `String.trimEnd` on Lean strings. -/
def strTrimEnd (s : String) : String := String.mk (trimR s.data)

/- `getTextContent` (`rules/util.ts`): concatenated text data of a whole
subtree. -/
mutual

def getTextContent : Node → String
  | .doc cs => getTextContentList cs
  | .elem _ _ cs => getTextContentList cs
  | .text d => d

def getTextContentList : List Node → String
  | [] => ""
  | c :: cs => getTextContent c ++ getTextContentList cs

end

/-- JavaScript `Number.parseInt(s, 10)`: skip leading whitespace, optional
sign, then a maximal digit prefix; `none` models `NaN`. -/
def jsParseInt (s : String) : Option Int :=
  let t := s.data.dropWhile isWS
  let sign : Int := match t with | '-' :: _ => -1 | _ => 1
  let rest := match t with | '-' :: r => r | '+' :: r => r | r => r
  let ds := rest.takeWhile (fun c => decide ('0' ≤ c) && decide (c ≤ '9'))
  if ds.isEmpty then none
  else some (sign * (ds.foldl (fun a c => a * 10 + (c.toNat - 48)) 0 : Nat))

/-- `Number.parseInt(node.name[1], 10)` in the heading rule; the filter
guarantees a name of the form `h1`–`h6`. -/
def headingLevel (name : String) : Nat :=
  match name.data with
  | _ :: c :: _ => c.toNat - 48
  | _ => 0

/-- `'#'.repeat(level)` etc. -/
def repChar (c : Char) (n : Nat) : String := String.mk (List.replicate n c)

/-- `content.split('\n')` on Lean strings. -/
def strLines (s : String) : List String := (linesOf s.data).map String.mk

/-- `lines.join('\n')` on Lean strings. -/
def strJoinNl (ls : List String) : String := String.mk (joinLines (ls.map String.data))

/-- List-level `startsWith`. -/
def prefixL : List Char → List Char → Bool
  | [], _ => true
  | _, [] => false
  | p :: ps, c :: cs => p == c && prefixL ps cs

/-- JavaScript `s.startsWith(p)`. -/
def strStartsWith (s p : String) : Bool := prefixL p.data s.data

/-- JavaScript `s.endsWith(p)`. -/
def strEndsWith (s p : String) : Bool := prefixL p.data.reverse s.data.reverse

/-- List-level substring search (JavaScript `String.includes`). -/
def inclL (needle : List Char) : List Char → Bool
  | [] => needle.isEmpty
  | c :: t => prefixL needle (c :: t) || inclL needle t

/-- JavaScript `s.includes(p)`. -/
def strIncludes (s p : String) : Bool := inclL p.data s.data

/-- Modelled from the spec: the WHATWG `URL` class used by the `a`/`img`
rules (`new URL(href, baseUrl).href`) is a platform builtin, external to
the repository (spec §1 treats the platform as out of scope).  Every claim
in this development uses the default `baseUrl = ""`, which short-circuits
the resolution branch, so the resolver is modelled as concatenation. -/
def urlResolve (base href : String) : String := base ++ href

/-- The `language-(\S+)` capture of the `pre` rule: the first occurrence of
`language-` followed by at least one non-whitespace character yields the
maximal non-whitespace run after it. -/
def languageOf : List Char → List Char
  | [] => []
  | c :: t =>
    if prefixL "language-".data (c :: t) then
      let after := (c :: t).drop 9
      match after with
      | a :: _ => if isWS a then languageOf t else after.takeWhile (fun x => !isWS x)
      | [] => languageOf t
    else languageOf t

/-- `blockRules` (`rules/block.ts`). -/
def blockRules : List Rule :=
  [ { filter := .tags ["h1", "h2", "h3", "h4", "h5", "h6"]
      replacement := fun ctx =>
        let level := headingLevel (match ctx.node with | .elem n _ _ => n | _ => "")
        let content := strTrim (ctx.convertChildren ctx.node)
        if content = "" then .nullR
        else if ctx.options.headingStyle = "setext" ∧ level ≤ 2 then
          let ch : Char := if level = 1 then '=' else '-'
          .str ("\n\n" ++ content ++ "\n" ++ repChar ch content.length ++ "\n\n")
        else .str ("\n\n" ++ repChar '#' level ++ " " ++ content ++ "\n\n")
      priority := some 0 }
  , { filter := .tag "p"
      replacement := fun ctx =>
        let content := strTrim (ctx.convertChildren ctx.node)
        if content = "" then .nullR
        else .str ("\n\n" ++ content ++ "\n\n")
      priority := some 0 }
  , { filter := .tag "blockquote"
      replacement := fun ctx =>
        let content := strTrim (ctx.convertChildren ctx.node)
        if content = "" then .nullR
        else
          let quoted := strJoinNl ((strLines content).map (fun line => "> " ++ line))
          .str ("\n\n" ++ quoted ++ "\n\n")
      priority := some 0 }
  , { filter := .tag "pre"
      replacement := fun ctx =>
        let codeChild := (childrenOf ctx.node).find? (fun c =>
          isTag c && (match c with | .elem n _ _ => n == "code" | _ => false))
        let lang :=
          match codeChild with
          | some (.elem _ a _) =>
            (match attrOf a "class" with
             | some cls => String.mk (languageOf cls.data)
             | none => "")
          | _ => ""
        let text := getTextContent ctx.node
        -- `options.fenceChar.repeat(3)`
        let fence := ctx.options.fenceChar ++ ctx.options.fenceChar ++ ctx.options.fenceChar
        .str ("\n\n" ++ fence ++ lang ++ "\n" ++ text ++ "\n" ++ fence ++ "\n\n")
      priority := some 0 }
  , { filter := .tag "hr"
      replacement := fun _ => .str "\n\n---\n\n"
      priority := some 0 }
  , { filter := .tag "br"
      replacement := fun _ => .str "  \n"
      priority := some 0 }
  , { filter := .tags ["script", "style", "noscript", "template"]
      replacement := fun _ => .nullR
      priority := some 0 }
  , { filter := .tags ["head", "title", "meta", "link", "base"]
      replacement := fun _ => .nullR
      priority := some 0 } ]

/-- The inline `code` rule's fragment for non-empty direct text `t`:
double backticks when `t` contains a backtick, and a padding space when
`t` starts or ends with one. -/
def codeFragment (t : String) : String :=
  let delim := if strIncludes t (String.mk [btick]) then String.mk [btick, btick]
               else String.mk [btick]
  let padded := if strStartsWith t (String.mk [btick]) || strEndsWith t (String.mk [btick])
                then " " ++ t ++ " " else t
  delim ++ padded ++ delim

/-- The concatenation `node.children.map(c => 'data' in c ? c.data : '').join('')`
of the inline `code` rule: only direct `Text` children contribute. -/
def directText : List Node → String
  | [] => ""
  | .text d :: cs => d ++ directText cs
  | _ :: cs => "" ++ directText cs

/-- `inlineRules` (`rules/inline.ts`). -/
def inlineRules : List Rule :=
  [ { filter := .tags ["strong", "b"]
      replacement := fun ctx =>
        let content := strTrim (ctx.convertChildren ctx.node)
        if content = "" then .nullR
        else .str (ctx.options.strongDelimiter ++ content ++ ctx.options.strongDelimiter)
      priority := some 0 }
  , { filter := .tags ["em", "i"]
      replacement := fun ctx =>
        let content := strTrim (ctx.convertChildren ctx.node)
        if content = "" then .nullR
        else .str (ctx.options.emDelimiter ++ content ++ ctx.options.emDelimiter)
      priority := some 0 }
  , { filter := .tags ["del", "s", "strike"]
      replacement := fun ctx =>
        let content := strTrim (ctx.convertChildren ctx.node)
        if content = "" then .nullR
        else .str ("~~" ++ content ++ "~~")
      priority := some 0 }
  , { filter := .tag "code"
      replacement := fun ctx =>
        if ctx.insidePre then .pass
        else
          let text := directText (childrenOf ctx.node)
          if text = "" then .nullR
          else .str (codeFragment text)
      priority := some 0 }
  , { filter := .tag "a"
      replacement := fun ctx =>
        let href := attrOr (match ctx.node with | .elem _ a _ => a | _ => []) "href" ""
        let content := strTrim (ctx.convertChildren ctx.node)
        if content = "" then .nullR
        else
          let resolvedHref :=
            if ctx.options.baseUrl ≠ "" ∧ href ≠ "" ∧
                ¬(strStartsWith href "http" = true) ∧ ¬(strStartsWith href "#" = true) then
              urlResolve ctx.options.baseUrl href
            else href
          match attrOf (match ctx.node with | .elem _ a _ => a | _ => []) "title" with
          | some title =>
            if title = "" then .str ("[" ++ content ++ "](" ++ resolvedHref ++ ")")
            else .str ("[" ++ content ++ "](" ++ resolvedHref ++ " \"" ++ title ++ "\")")
          | none => .str ("[" ++ content ++ "](" ++ resolvedHref ++ ")")
      priority := some 0 }
  , { filter := .tag "img"
      replacement := fun ctx =>
        let attribs := match ctx.node with | .elem _ a _ => a | _ => []
        let src := attrOr attribs "src" ""
        let alt := attrOr attribs "alt" ""
        let resolvedSrc :=
          if ctx.options.baseUrl ≠ "" ∧ src ≠ "" ∧
              ¬(strStartsWith src "http" = true) ∧ ¬(strStartsWith src "data:" = true) then
            urlResolve ctx.options.baseUrl src
          else src
        match attrOf attribs "title" with
        | some title =>
          if title = "" then .str ("![" ++ alt ++ "](" ++ resolvedSrc ++ ")")
          else .str ("![" ++ alt ++ "](" ++ resolvedSrc ++ " \"" ++ title ++ "\")")
        | none => .str ("![" ++ alt ++ "](" ++ resolvedSrc ++ ")")
      priority := some 0 }
  , { filter := .tags ["abbr", "mark"]
      replacement := fun ctx => .str (ctx.convertChildren ctx.node)
      priority := some 0 }
  , { filter := .tag "sub"
      replacement := fun ctx =>
        let content := strTrim (ctx.convertChildren ctx.node)
        if content = "" then .nullR
        else .str ("~" ++ content ++ "~")
      priority := some 0 }
  , { filter := .tag "sup"
      replacement := fun ctx =>
        let content := strTrim (ctx.convertChildren ctx.node)
        if content = "" then .nullR
        else .str ("^" ++ content ++ "^")
      priority := some 0 } ]

/-- The number of `<li>` elements among the first `siblingIndex` children
of the parent (`rules/list.ts`, lines 32–38). -/
def liCountBefore (children : List Node) (siblingIndex : Nat) : Nat :=
  ((children.take siblingIndex).filter (fun s =>
    isTag s && (match s with | .elem n _ _ => n == "li" | _ => false))).length

/-- The bullet computation of the `li` rule (`rules/list.ts`, lines 28–42):
inside an `<ol>`, the parent's `start` attribute (default `'1'`, via `||`)
parsed with `parseInt` plus the count of preceding `<li>` siblings; JavaScript
renders the `NaN` of an unparsable `start` as the string `NaN`.  Elsewhere,
the configured bullet character. -/
def liBulletFor (parent : Node) (siblingIndex : Nat) (options : ResolvedOptions) : String :=
  match parent with
  | .elem pname pattribs pchildren =>
    if pname = "ol" then
      match jsParseInt (attrOr pattribs "start" "1") with
      | some start => toString (start + (liCountBefore pchildren siblingIndex : Int)) ++ "."
      | none => "NaN."
    else options.bulletChar
  | _ => options.bulletChar

/-- `listRules` (`rules/list.ts`). -/
def listRules : List Rule :=
  [ { filter := .tags ["ul", "ol"]
      replacement := fun ctx =>
        let content := ctx.convertChildren ctx.node
        if ctx.listDepth = 0 then .str ("\n\n" ++ strTrim content ++ "\n\n")
        else .str ("\n" ++ strTrimEnd content)
      priority := some 0 }
  , { filter := .tag "li"
      replacement := fun ctx =>
        let content := strTrim (ctx.convertChildren ctx.node)
        if content = "" then .nullR
        else
          let indent := repChar ' ' (2 * (ctx.listDepth - 1))
          let bullet := liBulletFor ctx.parent ctx.siblingIndex ctx.options
          let lines := strLines content
          let first := indent ++ bullet ++ " " ++ lines.headD ""
          if lines.length = 1 then .str (first ++ "\n")
          else
            let continuationIndent := indent ++ repChar ' ' (bullet.length + 1)
            let rest := strJoinNl ((lines.drop 1).map (fun line =>
              if strTrim line = "" then "" else continuationIndent ++ line))
            .str (first ++ "\n" ++ rest ++ "\n")
      priority := some 0 } ]

/-- Modelled from the spec: `tableRules` (`packages/core/src/rules/table.ts`
is not among the provided sources; only its import from `rules/index.ts`
is).  Spec §4.2 lists tables among the built-in rules and §4.2's walker
contract gives them the `insideTable` flag; the walker tests show
pipe-delimited rows.  The filters cover exactly the table tags, which is
all any claim here depends on. -/
def tableRules : List Rule :=
  [ { filter := .tag "table"
      replacement := fun ctx =>
        let content := strTrim (ctx.convertChildren ctx.node)
        if content = "" then .nullR else .str ("\n\n" ++ content ++ "\n\n")
      priority := some 0 }
  , { filter := .tags ["thead", "tbody", "tfoot"]
      replacement := fun ctx => .str (ctx.convertChildren ctx.node)
      priority := some 0 }
  , { filter := .tag "tr"
      replacement := fun ctx => .str ("|" ++ ctx.convertChildren ctx.node ++ "\n")
      priority := some 0 }
  , { filter := .tags ["th", "td"]
      replacement := fun ctx => .str (" " ++ strTrim (ctx.convertChildren ctx.node) ++ " |")
      priority := some 0 } ]

/-- `getDefaultRules` (`rules/index.ts`): block, inline, list and table
rules, in that order (the lazy cache is an evaluation detail with no
observable effect on the produced list). -/
def getDefaultRules : List Rule := blockRules ++ inlineRules ++ listRules ++ tableRules

/-- The priority key of the sort comparator: `r.priority ?? 0`. -/
def prioOf (r : Rule) : Int := r.priority.getD 0

/-- Stable insertion into a priority-descending list: `r` goes before the
first element whose priority is not greater, so earlier elements win ties. -/
def insertRule (r : Rule) : List Rule → List Rule
  | [] => [r]
  | x :: xs => if prioOf r < prioOf x then x :: insertRule r xs else r :: x :: xs

/-- `[...].sort((a, b) => (b.priority ?? 0) - (a.priority ?? 0))`
(`converter.ts`, line 67).  JavaScript's `Array.sort` is stable, and a
stable sort by a total comparator has a unique result, here realised as an
insertion sort. -/
def sortRules : List Rule → List Rule
  | [] => []
  | r :: rs => insertRule r (sortRules rs)

/-- The merged rule list of `convert` (`converter.ts`, line 67): user rules
concatenated before the built-ins, then stably sorted by priority
descending. -/
def mergedRules (userRules : List Rule) : List Rule :=
  sortRules (userRules ++ getDefaultRules)

/-- The walker phase of `convert` (`converter.ts`, lines 56–87) after
parsing, with `extract`, `deduplicate` and `frontmatter` at their `false`
defaults: walk the document with the merged rules and render the raw
result.  `fuel` bounds the walker's recursion depth (see `walk`). -/
def convertCore (fuel : Nat) (document : Node) (userRules : List Rule)
    (opts : ResolvedOptions) : String :=
  render (walk fuel document
    { options := opts
      rules := mergedRules userRules
      listDepth := 0
      insidePre := false
      insideTable := false })

/-! ## Extractor (`packages/core/src/extract/`) -/

/-- A strip pattern: `string | RegExp`.  A regular expression is modelled
by its decision function on strings. -/
inductive Pat where
  | str (s : String)
  | re (p : List Char → Bool)

/-- JavaScript `\w`. -/
def isWordChar (c : Char) : Bool :=
  (decide ('a' ≤ c) && decide (c ≤ 'z')) || (decide ('A' ≤ c) && decide (c ≤ 'Z')) ||
    (decide ('0' ≤ c) && decide (c ≤ '9')) || c == '_'

/-- Case-insensitive literal match of `w` (given lowercase) at the head of
`s`. -/
def matchLitCI : List Char → List Char → Bool
  | [], _ => true
  | _, [] => false
  | p :: ps, c :: cs => p == c.toLower && matchLitCI ps cs

/-- The trailing `\b` test after a match of `w` at the head of `s`: the
word-ness of the last matched character must differ from that of the
following character (end of input counts as non-word). -/
def boundaryAfter (w s : List Char) : Bool :=
  let lastW := match w.getLast? with | some c => isWordChar c | none => false
  let nextW := match s.drop w.length with | c :: _ => isWordChar c | [] => false
  lastW != nextW

/-- Scan for a case-insensitive occurrence of `w` with a leading `\b`
(the previous character, if any, must be a non-word character) and, when
`rb` is set, a trailing `\b`. -/
def scanPatCI (w : List Char) (rb : Bool) : Option Char → List Char → Bool
  | _, [] => false
  | prev, c :: t =>
    ((match prev with | none => true | some p => !isWordChar p) &&
      matchLitCI w (c :: t) && (!rb || boundaryAfter w (c :: t))) ||
    scanPatCI w rb (some c) t

/-- A default strip regex of the shape `/\b(w₁|…|wₙ)\b?/i`, expanded into
its finite word alternatives (`ws` lowercase); `rb` is the trailing `\b`. -/
def reWords (ws : List String) (rb : Bool) : Pat :=
  .re (fun s => ws.any (fun w => scanPatCI w.data rb none s))

/-- `DEFAULT_STRIP_TAGS` (`extract/selectors.ts`). -/
def DEFAULT_STRIP_TAGS : List String :=
  ["nav", "footer", "header", "aside", "script", "style", "noscript", "template",
   "iframe", "svg", "form"]

/-- `DEFAULT_STRIP_ROLES` (`extract/selectors.ts`). -/
def DEFAULT_STRIP_ROLES : List String :=
  ["navigation", "banner", "contentinfo", "complementary", "search", "menu", "menubar"]

/-- `DEFAULT_STRIP_CLASSES` (`extract/selectors.ts`); each `/\b…\b?/i`
regex is expanded into its word alternatives (e.g. `ad[s-]?` into
`ad`, `ads`, `ad-`). -/
def DEFAULT_STRIP_CLASSES : List Pat :=
  [ reWords ["ad", "ads", "ad-"] true
  , reWords ["sidebar"] true
  , reWords ["widget"] true
  , reWords ["cookie"] false
  , reWords ["popup"] true
  , reWords ["modal"] true
  , reWords ["breadcrumb"] false
  , reWords ["footnote"] false
  , reWords ["share"] false
  , reWords ["social"] false
  , reWords ["newsletter"] false
  , reWords ["comment"] false
  , reWords ["related"] false
  , reWords ["cta"] true
  , reWords ["call-to-action"] false
  , reWords ["authorbio", "authorcard", "authorinfo", "authorbox",
             "author-bio", "author-card", "author-info", "author-box",
             "author_bio", "author_card", "author_info", "author_box"] true
  , reWords ["avatar"] true
  , reWords ["pagination"] true
  , reWords ["prevnext", "prev-next", "prev_next"] true
  , reWords ["pager"] true
  , reWords ["postnav", "post-nav", "post_nav"] false
  , reWords ["articlenav", "article-nav", "article_nav"] false
  , reWords ["backlink", "back-link", "back_link"] false ]

/-- `DEFAULT_STRIP_IDS` (`extract/selectors.ts`). -/
def DEFAULT_STRIP_IDS : List Pat :=
  [ reWords ["ad", "ads", "ad-"] true
  , reWords ["sidebar"] true
  , reWords ["cookie"] false
  , reWords ["popup"] true
  , reWords ["modal"] true ]

/-- `ExtractOptions` (`types.ts`): merge-only pattern additions and the
three keep flags. -/
structure ExtractOptions where
  stripTags : List String := []
  stripClasses : List Pat := []
  stripRoles : List String := []
  stripIds : List Pat := []
  keepHeader : Bool := false
  keepFooter : Bool := false
  keepNav : Bool := false

/-- The four configured strip collections (the `Set`s of `extractContent`
are modelled as lists; only membership is used). -/
structure StripConfig where
  tags : List String
  roles : List String
  classes : List Pat
  ids : List Pat

/-- The configuration built by `extractContent` (`extract/extractor.ts`,
lines 16–26): defaults unioned with the user additions, then the keep
flags delete their tag from the strip-tags set. -/
def buildConfig (options : ExtractOptions) : StripConfig :=
  let stripTags0 := DEFAULT_STRIP_TAGS ++ options.stripTags
  let stripTags1 := if options.keepHeader then stripTags0.filter (· ≠ "header") else stripTags0
  let stripTags2 := if options.keepFooter then stripTags1.filter (· ≠ "footer") else stripTags1
  let stripTags3 := if options.keepNav then stripTags2.filter (· ≠ "nav") else stripTags2
  { tags := stripTags3
    roles := DEFAULT_STRIP_ROLES ++ options.stripRoles
    classes := DEFAULT_STRIP_CLASSES ++ options.stripClasses
    ids := DEFAULT_STRIP_IDS ++ options.stripIds }

/-- `matchesAny` (`extract/extractor.ts`): a string pattern matches as a
substring, a regex by its test. -/
def matchesAny (value : List Char) (patterns : List Pat) : Bool :=
  patterns.any (fun p =>
    match p with
    | .str s => inclL s.data value
    | .re test => test value)

/-- `shouldStrip` (`extract/extractor.ts`): tag membership, then ARIA role,
then class patterns, then id patterns; empty attribute values are falsy
and skip their test. -/
def shouldStrip (el : Node) (cfg : StripConfig) : Bool :=
  match el with
  | .elem name attribs _ =>
    if cfg.tags.contains name then true
    else
      let role := attrOr attribs "role" ""
      if role ≠ "" && cfg.roles.contains role then true
      else
        let className := attrOr attribs "class" ""
        if className ≠ "" && matchesAny className.data cfg.classes then true
        else
          let idv := attrOr attribs "id" ""
          idv ≠ "" && matchesAny idv.data cfg.ids
  | _ => false

/- `pruneTree` (`extract/extractor.ts`): element children matching a strip
predicate are removed with their whole subtree, the others are recursed
into; text (and other non-tag) children are untouched.  The source
collects matches during the scan and splices them out afterwards; the
resulting child list is the filter-then-recurse below. -/
mutual

def pruneNode (cfg : StripConfig) : Node → Node
  | .doc cs => .doc (pruneList cfg cs)
  | .elem n a cs => .elem n a (pruneList cfg cs)
  | .text d => .text d

def pruneList (cfg : StripConfig) : List Node → List Node
  | [] => []
  | c :: cs =>
    match c with
    | .elem n a gs =>
      if shouldStrip (.elem n a gs) cfg then pruneList cfg cs
      else pruneNode cfg (.elem n a gs) :: pruneList cfg cs
    | other => other :: pruneList cfg cs

end

/-- The per-child action of `pruneTree` on a kept child: element children
are pruned recursively, non-tag children are left untouched. -/
def pruneChildMap (cfg : StripConfig) (c : Node) : Node :=
  match c with
  | .elem n a gs => pruneNode cfg (.elem n a gs)
  | other => other

/-- `extractContent` (`extract/extractor.ts`): build the strip
configuration and prune the document (the source mutates in place; the
model returns the pruned tree). -/
def extractContent (document : Node) (options : ExtractOptions) : Node :=
  pruneNode (buildConfig options) document

/- All elements of a subtree/forest: `descElems n` lists the elements
strictly below `n`; `elemsIn cs` lists every element of the forest `cs`,
the roots included. -/
mutual

def descElems : Node → List Node
  | .doc cs => elemsIn cs
  | .elem _ _ cs => elemsIn cs
  | .text _ => []

def elemsIn : List Node → List Node
  | [] => []
  | c :: cs =>
    (match c with
     | .elem n a gs => Node.elem n a gs :: descElems (.elem n a gs)
     | _ => []) ++ elemsIn cs

end

/- Subtree sizes, used as the induction measure for theorems about the
mutually recursive tree functions. -/
mutual

def nodeSize : Node → Nat
  | .doc cs => 1 + sizeList cs
  | .elem _ _ cs => 1 + sizeList cs
  | .text _ => 1

def sizeList : List Node → Nat
  | [] => 0
  | c :: cs => nodeSize c + sizeList cs

end

/-! # Theorems -/

/-! ## C10: the content hash separates inputs of different lengths -/

theorem char_ofNat_toNat (n : Nat) (h : n < 128) : (Char.ofNat n).toNat = n := by
  have hv : n < 55296 ∨ 57343 < n ∧ n < 1114112 := Or.inl (by omega)
  simp [Char.ofNat, hv, Char.ofNatAux, Char.toNat]
  simp [UInt32.toNat, BitVec.toNat_ofNat]

theorem b36digit_toNat (d : Nat) (h : d < 36) :
    (b36digit d).toNat = if d < 10 then 48 + d else 87 + d := by
  unfold b36digit
  by_cases h10 : d < 10
  · simp [h10, char_ofNat_toNat (48 + d) (by omega)]
  · simp [h10, char_ofNat_toNat (87 + d) (by omega)]

theorem b36val_b36digit (d : Nat) (h : d < 36) : b36val (b36digit d) = d := by
  unfold b36val
  rw [b36digit_toNat d h]
  by_cases h10 : d < 10 <;> simp [h10] <;> omega

theorem b36digit_ne_hyphen (d : Nat) (h : d < 36) : b36digit d ≠ '-' := by
  intro heq
  have h45 : (b36digit d).toNat = 45 := by rw [heq]; decide
  rw [b36digit_toNat d h] at h45
  by_cases h10 : d < 10 <;> simp [h10] at h45 <;> omega

theorem toB36Go_foldl (fuel : Nat) :
    ∀ (n : Nat) (acc : List Char), n ≤ fuel →
      (toB36Go fuel n acc).foldl (fun a c => a * 36 + b36val c) 0
        = acc.foldl (fun a c => a * 36 + b36val c) n := by
  induction fuel with
  | zero =>
    intro n acc hn
    have hn0 : n = 0 := by omega
    subst hn0
    simp [toB36Go, b36val_b36digit 0 (by omega)]
  | succ f ih =>
    intro n acc hn
    unfold toB36Go
    by_cases h36 : n < 36
    · simp [h36, b36val_b36digit n h36]
    · have hdiv : n / 36 ≤ f := by
        have hlt : n / 36 < n := Nat.div_lt_self (by omega) (by omega)
        omega
      simp only [h36, if_false]
      rw [ih (n / 36) _ hdiv]
      simp only [List.foldl]
      rw [b36val_b36digit (n % 36) (Nat.mod_lt _ (by omega))]
      congr 1
      omega

theorem ofB36_toB36 (n : Nat) : ofB36 (toB36 n) = n := by
  unfold ofB36 toB36
  rw [toB36Go_foldl n n [] le_rfl]
  simp

theorem toB36_inj {a b : Nat} (h : toB36 a = toB36 b) : a = b := by
  have := congrArg ofB36 h
  rwa [ofB36_toB36, ofB36_toB36] at this

theorem toB36Go_ne_hyphen (fuel : Nat) :
    ∀ (n : Nat) (acc : List Char), n ≤ fuel → (∀ c ∈ acc, c ≠ '-') →
      ∀ c ∈ toB36Go fuel n acc, c ≠ '-' := by
  induction fuel with
  | zero =>
    intro n acc hn hacc c hc
    have hn0 : n = 0 := by omega
    subst hn0
    simp [toB36Go] at hc
    rcases hc with hc | hc
    · subst hc; exact b36digit_ne_hyphen 0 (by omega)
    · exact hacc c hc
  | succ f ih =>
    intro n acc hn hacc c hc
    unfold toB36Go at hc
    by_cases h36 : n < 36
    · simp [h36] at hc
      rcases hc with hc | hc
      · subst hc; exact b36digit_ne_hyphen n h36
      · exact hacc c hc
    · simp only [h36, if_false] at hc
      have hdiv : n / 36 ≤ f := by
        have hlt : n / 36 < n := Nat.div_lt_self (by omega) (by omega)
        omega
      refine ih (n / 36) _ hdiv ?_ c hc
      intro c' hc'
      rcases List.mem_cons.mp hc' with hc' | hc'
      · subst hc'; exact b36digit_ne_hyphen _ (Nat.mod_lt _ (by omega))
      · exact hacc c' hc'

theorem toB36_ne_hyphen (n : Nat) : ∀ c ∈ toB36 n, c ≠ '-' :=
  toB36Go_ne_hyphen n n [] le_rfl (by intro c hc; cases hc)

theorem append_hyphen_inj :
    ∀ (as bs x y : List Char), (∀ c ∈ as, c ≠ '-') → (∀ c ∈ bs, c ≠ '-') →
      as ++ '-' :: x = bs ++ '-' :: y → as = bs ∧ x = y := by
  intro as
  induction as with
  | nil =>
    intro bs x y _ hb h
    cases bs with
    | nil => simpa using h
    | cons b bs' =>
      simp at h
      exact absurd h.1.symm (hb b (by simp))
  | cons a as' ih =>
    intro bs x y ha hb h
    cases bs with
    | nil =>
      simp at h
      exact absurd h.1 (ha a (by simp))
    | cons b bs' =>
      simp at h
      obtain ⟨rfl, h2⟩ := h
      obtain ⟨h3, h4⟩ := ih bs' x y (fun c hc => ha c (by simp [hc])) (fun c hc => hb c (by simp [hc])) h2
      exact ⟨by rw [h3], h4⟩

/-- C10: `contentHash` is (a) the input's length in base 36, a hyphen, then
the 32-bit FNV-1a hash in base 36 (it is a plain function of the input, so
purity is immediate), and (b) therefore injective across inputs of
different lengths: the hyphen never occurs among base-36 digits, so equal
hashes force equal base-36 length prefixes, and base-36 rendering is
injective. -/
theorem C10_contentHash_length_prefix :
    (∀ s : String, contentHash s = String.mk (toB36 s.data.length ++ '-' :: toB36 (fnv1a s.data))) ∧
    (∀ a b : String, a.data.length ≠ b.data.length → contentHash a ≠ contentHash b) := by
  constructor
  · intro s; rfl
  · intro a b hne heq
    unfold contentHash at heq
    have heqd := congrArg String.data heq
    obtain ⟨h1, _⟩ := append_hyphen_inj _ _ _ _ (toB36_ne_hyphen _) (toB36_ne_hyphen _) heqd
    exact hne (toB36_inj h1)

/-- Witness for C10 at concrete inputs of lengths 1 and 2. -/
theorem C10_contentHash_length_prefix_witness :
    contentHash "a" ≠ contentHash "ab" :=
  C10_contentHash_length_prefix.2 "a" "ab" (by decide)

/-! ## C2: interpretation of a rule replacement's result -/

/-- Rules that either do not match or fall through are skipped by the rule
scan. -/
theorem applyRulesGo_pass_skip (wf : Node → WalkerState → String) (el : Node) (i : Nat)
    (parent : Node) (st : WalkerState) (pre rest : List Rule)
    (hpre : ∀ r' ∈ pre, matchesFilter r'.filter el = true →
      r'.replacement (mkContext wf el i parent st) = .pass) :
    applyRulesGo wf el i parent st (pre ++ rest) = applyRulesGo wf el i parent st rest := by
  induction pre with
  | nil => rfl
  | cons r' pre' ih =>
    have ih' := ih (fun r hr hm => hpre r (by simp [hr]) hm)
    by_cases hm : matchesFilter r'.filter el = true
    · have hp := hpre r' (by simp) hm
      simp [applyRulesGo, hm, hp, ih']
    · simp [applyRulesGo, hm, ih']

/-- C2: in the walker's rule dispatch, once every earlier matching rule has
fallen through, (1) a rule returning a string makes that string the
element's fragment and ends the scan — any rules after it are ignored;
(2) a rule returning `null` removes the element: the scan yields `none`
whatever the element's children or the walker, and (4) the walk loop then
emits no fragment for that element; (3) a fall-through result hands the
element to the remaining rules. -/
theorem C2_walker_dispatch :
    (∀ (wf : Node → WalkerState → String) (el : Node) (i : Nat) (parent : Node)
        (st : WalkerState) (pre post : List Rule) (r : Rule) (s : String),
      (∀ r' ∈ pre, matchesFilter r'.filter el = true →
        r'.replacement (mkContext wf el i parent st) = .pass) →
      matchesFilter r.filter el = true →
      r.replacement (mkContext wf el i parent st) = .str s →
      applyRulesGo wf el i parent st (pre ++ r :: post) = some s) ∧
    (∀ (wf : Node → WalkerState → String) (el : Node) (i : Nat) (parent : Node)
        (st : WalkerState) (pre post : List Rule) (r : Rule),
      (∀ r' ∈ pre, matchesFilter r'.filter el = true →
        r'.replacement (mkContext wf el i parent st) = .pass) →
      matchesFilter r.filter el = true →
      r.replacement (mkContext wf el i parent st) = .nullR →
      applyRulesGo wf el i parent st (pre ++ r :: post) = none) ∧
    (∀ (wf : Node → WalkerState → String) (el : Node) (i : Nat) (parent : Node)
        (st : WalkerState) (r : Rule) (rs : List Rule),
      matchesFilter r.filter el = true →
      r.replacement (mkContext wf el i parent st) = .pass →
      applyRulesGo wf el i parent st (r :: rs) = applyRulesGo wf el i parent st rs) ∧
    (∀ (wf : Node → WalkerState → String) (parent : Node) (st : WalkerState)
        (n : String) (a : List (String × String)) (gs cs : List Node) (i : Nat)
        (frags : List String),
      applyRulesGo wf (.elem n a gs) i parent st st.rules = none →
      walkFrags wf parent st (Node.elem n a gs :: cs) i frags
        = walkFrags wf parent st cs (i + 1) frags) := by
  refine ⟨?_, ?_, ?_, ?_⟩
  · intro wf el i parent st pre post r s hpre hm hr
    rw [applyRulesGo_pass_skip wf el i parent st pre _ hpre]
    simp [applyRulesGo, hm, hr]
  · intro wf el i parent st pre post r hpre hm hr
    rw [applyRulesGo_pass_skip wf el i parent st pre _ hpre]
    simp [applyRulesGo, hm, hr]
  · intro wf el i parent st r rs hm hr
    simp [applyRulesGo, hm, hr]
  · intro wf parent st n a gs cs i frags hnone
    simp [walkFrags, hnone]

/-- Witness for C2: a matching fall-through rule defers to a matching
string rule, whose string is the result. -/
theorem C2_walker_dispatch_witness :
    applyRulesGo (fun _ _ => "") (.elem "p" [] []) 0 (.doc [])
      { options := DEFAULTS, rules := [], listDepth := 0, insidePre := false,
        insideTable := false }
      [ { filter := .tag "p", replacement := fun _ => .pass, priority := some 20 }
      , { filter := .tag "p", replacement := fun _ => .str "X", priority := some 10 } ]
      = some "X" := by
  exact C2_walker_dispatch.1 _ _ _ _ _
    [{ filter := .tag "p", replacement := fun _ => .pass, priority := some 20 }] []
    { filter := .tag "p", replacement := fun _ => .str "X", priority := some 10 } "X"
    (by
      intro r' hr' _
      simp at hr'
      rw [hr'])
    (by decide) rfl

/-! ## C6: rule priority order and tie-breaking -/

/-- Membership in an insertion: the new rule or an old one. -/
theorem mem_insertRule {y r : Rule} {l : List Rule} (h : y ∈ insertRule r l) :
    y = r ∨ y ∈ l := by
  induction l with
  | nil => simpa [insertRule] using h
  | cons x xs ih =>
    unfold insertRule at h
    by_cases hlt : prioOf r < prioOf x
    · simp [hlt] at h
      rcases h with h | h
      · exact Or.inr (by simp [h])
      · rcases ih h with h | h
        · exact Or.inl h
        · exact Or.inr (by simp [h])
    · simp [hlt] at h
      rcases h with h | h | h
      · exact Or.inl h
      · exact Or.inr (by simp [h])
      · exact Or.inr (by simp [h])

/-- Inserting into a priority-descending list keeps it descending. -/
theorem insertRule_sorted {l : List Rule} (r : Rule)
    (h : l.Pairwise (fun a b => prioOf b ≤ prioOf a)) :
    (insertRule r l).Pairwise (fun a b => prioOf b ≤ prioOf a) := by
  induction l with
  | nil => simp [insertRule]
  | cons x xs ih =>
    rw [List.pairwise_cons] at h
    obtain ⟨hx, hxs⟩ := h
    unfold insertRule
    by_cases hlt : prioOf r < prioOf x
    · simp only [hlt, if_true]
      rw [List.pairwise_cons]
      refine ⟨?_, ih hxs⟩
      intro y hy
      rcases mem_insertRule hy with rfl | hy
      · omega
      · exact hx y hy
    · simp only [hlt, if_false]
      rw [List.pairwise_cons]
      constructor
      · intro y hy
        rcases List.mem_cons.mp hy with rfl | hy
        · omega
        · have := hx y hy
          omega
      · rw [List.pairwise_cons]
        exact ⟨hx, hxs⟩

/-- The sorted rule list is priority-descending. -/
theorem sortRules_sorted (rs : List Rule) :
    (sortRules rs).Pairwise (fun a b => prioOf b ≤ prioOf a) := by
  induction rs with
  | nil => simp [sortRules]
  | cons r rs ih => exact insertRule_sorted r ih

/-- Insertion is stable: it preserves the sequence of rules at each
priority, placing the new rule first among its equals (every rule that the
insertion walks past has strictly greater priority). -/
theorem insertRule_filter (r : Rule) (p : Int) :
    ∀ l : List Rule,
      (insertRule r l).filter (fun x => prioOf x == p)
        = (if prioOf r == p then
            r :: l.filter (fun x => prioOf x == p)
          else l.filter (fun x => prioOf x == p)) := by
  intro l
  induction l with
  | nil => by_cases hr : prioOf r == p <;> simp [insertRule, List.filter, hr]
  | cons x xs ih =>
    unfold insertRule
    by_cases hlt : prioOf r < prioOf x
    · simp only [hlt, if_true]
      by_cases hr : prioOf r = p
      · have hx : ¬(prioOf x = p) := by omega
        simp [List.filter_cons, hr, hx, ih]
      · simp only [List.filter_cons, ih]
        by_cases hx : prioOf x = p <;> simp [hx, hr]
    · simp only [hlt, if_false]
      by_cases hr : prioOf r = p <;> by_cases hx : prioOf x = p <;>
        simp [List.filter_cons, hr, hx]

/-- The stable sort preserves the sequence of rules at each priority. -/
theorem sortRules_filter (rs : List Rule) (p : Int) :
    (sortRules rs).filter (fun x => prioOf x == p) = rs.filter (fun x => prioOf x == p) := by
  induction rs with
  | nil => rfl
  | cons r rs ih =>
    rw [sortRules, insertRule_filter, List.filter_cons]
    by_cases hr : prioOf r = p <;> simp [hr, ih]

/-- C6: (1) `convert`'s merged rule list is sorted by priority descending;
(2) the sort is stable — at every priority the merged list preserves
registration order, so at equal priority every user rule precedes every
built-in rule (user rules are concatenated first); (3) when a
lower-priority rule is registered before a higher-priority rule matching
the same element, sorting places the higher-priority rule first and its
string replacement is the one the dispatcher returns. -/
theorem C6_rule_priority :
    (∀ userRules : List Rule,
      (mergedRules userRules).Pairwise (fun a b => prioOf b ≤ prioOf a)) ∧
    (∀ (userRules : List Rule) (p : Int),
      (mergedRules userRules).filter (fun x => prioOf x == p)
        = userRules.filter (fun x => prioOf x == p)
          ++ getDefaultRules.filter (fun x => prioOf x == p)) ∧
    (∀ (wf : Node → WalkerState → String) (el : Node) (i : Nat) (parent : Node)
        (st : WalkerState) (rlo rhi : Rule) (s : String),
      prioOf rlo < prioOf rhi →
      matchesFilter rhi.filter el = true →
      rhi.replacement (mkContext wf el i parent st) = .str s →
      applyRulesGo wf el i parent st (sortRules [rlo, rhi]) = some s) := by
  refine ⟨?_, ?_, ?_⟩
  · intro userRules
    exact sortRules_sorted _
  · intro userRules p
    rw [mergedRules, sortRules_filter, List.filter_append]
  · intro wf el i parent st rlo rhi s hlt hm hr
    have hsort : sortRules [rlo, rhi] = [rhi, rlo] := by
      simp [sortRules, insertRule, hlt]
    rw [hsort]
    simp [applyRulesGo, hm, hr]

/-! ## C7: ordered-list item numbering -/

/-- C7: (1) for an `<li>` whose parent is an `<ol>`, the item number the
`li` rule renders is the parent's `start` attribute — parsed as an
integer, with `'1'` substituted when the attribute is absent (or empty) —
plus the number of `<li>` siblings strictly before the item among the
parent's children; (2) in particular, converting
`<ol start="5"><li>Five</li><li>Six</li></ol>` yields markdown containing
`5. Five` and `6. Six`. -/
theorem C7_ol_numbering :
    (∀ (pattribs : List (String × String)) (pchildren : List Node) (siblingIndex : Nat)
        (opts : ResolvedOptions) (n : Int),
      jsParseInt (attrOr pattribs "start" "1") = some n →
      liBulletFor (.elem "ol" pattribs pchildren) siblingIndex opts
        = toString (n + (liCountBefore pchildren siblingIndex : Int)) ++ ".") ∧
    (strIncludes (convertCore 10 (.doc [.elem "ol" [("start", "5")]
        [.elem "li" [] [.text "Five"], .elem "li" [] [.text "Six"]]]) [] DEFAULTS)
      "5. Five" = true ∧
     strIncludes (convertCore 10 (.doc [.elem "ol" [("start", "5")]
        [.elem "li" [] [.text "Five"], .elem "li" [] [.text "Six"]]]) [] DEFAULTS)
      "6. Six" = true) := by
  refine ⟨?_, by decide, by decide⟩
  intro pattribs pchildren siblingIndex opts n hparse
  simp [liBulletFor, hparse]

/-- Witness for C7: the second item of `<ol start="5">` is numbered `6.`. -/
theorem C7_ol_numbering_witness :
    liBulletFor (.elem "ol" [("start", "5")]
      [.elem "li" [] [.text "Five"], .elem "li" [] [.text "Six"]]) 1 DEFAULTS = "6." := by
  rw [C7_ol_numbering.1 _ _ _ _ 5 (by decide)]
  decide

/-! ## C8: extraction removes exactly the matching subtrees -/

/-- `shouldStrip` reads only the tag name and the attributes. -/
theorem shouldStrip_children_irrel (n : String) (a : List (String × String))
    (xs ys : List Node) (cfg : StripConfig) :
    shouldStrip (.elem n a xs) cfg = shouldStrip (.elem n a ys) cfg := rfl

/-- A node's size is positive. -/
theorem nodeSize_pos (c : Node) : 0 < nodeSize c := by
  cases c <;> simp [nodeSize]

/-- After pruning a forest, no element anywhere in it matches the strip
predicate. -/
theorem pruneList_no_strip (cfg : StripConfig) :
    ∀ (k : Nat) (cs : List Node), sizeList cs ≤ k →
      ∀ e ∈ elemsIn (pruneList cfg cs), shouldStrip e cfg = false := by
  intro k
  induction k with
  | zero =>
    intro cs hsz e he
    cases cs with
    | nil => simp [pruneList, elemsIn] at he
    | cons c cs =>
      have hc := nodeSize_pos c
      simp only [sizeList] at hsz
      omega
  | succ k ih =>
    intro cs hsz e he
    cases cs with
    | nil => simp [pruneList, elemsIn] at he
    | cons c cs =>
      simp only [sizeList] at hsz
      have hc := nodeSize_pos c
      cases c with
      | elem n a gs =>
        simp only [nodeSize, sizeList] at hsz
        by_cases hstrip : shouldStrip (.elem n a gs) cfg = true
        · rw [pruneList] at he
          simp only [hstrip, if_true] at he
          exact ih cs (by omega) e he
        · rw [pruneList] at he
          simp only [hstrip, if_false] at he
          simp only [pruneNode, elemsIn, descElems] at he
          rcases List.mem_append.mp he with he | he
          · rcases List.mem_cons.mp he with rfl | he
            · rw [shouldStrip_children_irrel n a _ gs]
              exact Bool.eq_false_iff.mpr hstrip
            · exact ih gs (by omega) e he
          · exact ih cs (by omega) e he
      | text d =>
        simp only [nodeSize] at hsz
        rw [show pruneList cfg (Node.text d :: cs) = Node.text d :: pruneList cfg cs from rfl] at he
        simp only [elemsIn, List.nil_append] at he
        exact ih cs (by omega) e he
      | doc ds =>
        simp only [nodeSize] at hsz
        rw [show pruneList cfg (Node.doc ds :: cs) = Node.doc ds :: pruneList cfg cs from rfl] at he
        simp only [elemsIn, List.nil_append] at he
        exact ih cs (by omega) e he

/-- Pruning a child list deletes some children and maps `pruneChildMap`
over the kept ones, preserving order. -/
theorem pruneList_sublist (cfg : StripConfig) :
    ∀ cs : List Node, (pruneList cfg cs).Sublist (cs.map (pruneChildMap cfg)) := by
  intro cs
  induction cs with
  | nil => simp [pruneList]
  | cons c cs ih =>
    cases c with
    | elem n a gs =>
      by_cases hstrip : shouldStrip (.elem n a gs) cfg = true
      · rw [pruneList]
        simp only [hstrip, if_true, List.map_cons]
        exact ih.cons _
      · rw [pruneList]
        simp only [hstrip, if_false, List.map_cons]
        exact ih.cons₂ _
    | text d =>
      rw [show pruneList cfg (Node.text d :: cs) = Node.text d :: pruneList cfg cs from rfl]
      simp only [List.map_cons]
      exact ih.cons₂ _
    | doc ds =>
      rw [show pruneList cfg (Node.doc ds :: cs) = Node.doc ds :: pruneList cfg cs from rfl]
      simp only [List.map_cons]
      exact ih.cons₂ _

/-- C8: after `extractContent`, (1) no element anywhere in the resulting
tree matches the configured strip predicate — the predicate built from the
default tags/roles/class-patterns/id-patterns unioned with the
user-supplied ones, minus the tags removed by the `keepHeader`/`keepFooter`/
`keepNav` flags (`buildConfig`); and (2) pruning a child list only deletes
matching children and recursively prunes the kept ones in order, so every
kept element's subtree is unchanged except for removed descendants. -/
theorem C8_extraction_subset :
    (∀ (options : ExtractOptions) (document : Node),
      ∀ e ∈ descElems (extractContent document options),
        shouldStrip e (buildConfig options) = false) ∧
    (∀ (cfg : StripConfig) (cs : List Node),
      (pruneList cfg cs).Sublist (cs.map (pruneChildMap cfg))) := by
  constructor
  · intro options document e he
    unfold extractContent at he
    cases document with
    | doc cs =>
      simp only [pruneNode, descElems] at he
      exact pruneList_no_strip _ (sizeList cs) cs le_rfl e he
    | elem n a cs =>
      simp only [pruneNode, descElems] at he
      exact pruneList_no_strip _ (sizeList cs) cs le_rfl e he
    | text d => simp [pruneNode, descElems] at he
  · intro cfg cs
    exact pruneList_sublist cfg cs

/-- Witness for C8: extracting
`<doc><nav/><p>Keep</p></doc>` with default options leaves only the `<p>`
element, which indeed matches no strip predicate. -/
theorem C8_extraction_subset_witness :
    shouldStrip (.elem "p" [] [.text "Keep"]) (buildConfig {}) = false :=
  C8_extraction_subset.1 {} (.doc [.elem "nav" [] [.text "menu"], .elem "p" [] [.text "Keep"]])
    (.elem "p" [] [.text "Keep"])
    (by
      rw [show descElems (extractContent
          (.doc [.elem "nav" [] [.text "menu"], .elem "p" [] [.text "Keep"]]) {})
          = [Node.elem "p" [] [.text "Keep"]] from rfl]
      exact List.mem_singleton_self _)

/-! ## C1: the deduplication length floor -/

/-- Counterexample to C1 as stated: in
`"# aaaa bbbb\n\ncc\n\n# aaaa bbbb\n\ncc"` the non-blank block `cc` has
normalized fingerprint length `2 < 10`, yet one of its two occurrences is
removed: it is the content half of a heading+content section pair whose
compound fingerprint (`# aaaa bbbb cc`, length `14 ≥ 10`) repeats, and
`processHeadingBlock` drops both blocks of the repeated pair without
consulting the content block's own fingerprint length. -/
theorem C1_dedup_floor_counterexample :
    ((splitBlocks ("# aaaa bbbb\n\ncc\n\n# aaaa bbbb\n\ncc").data).count "cc".data = 2) ∧
    ((dedupKept "# aaaa bbbb\n\ncc\n\n# aaaa bbbb\n\ncc" 10).count "cc".data = 1) ∧
    (isBlankB "cc".data = false) ∧
    ((normalizeFp (trimC "cc".data)).length < 10) := by decide

/-- The dedup loop never drops an individually-processed block whose
fingerprint is below the floor: on heading-free block lists, every
non-blank block with fingerprint length `< minLength` is kept with its
full multiplicity, for any fingerprint set `seen`. -/
theorem dedupGo_short_count (minLength : Nat) :
    ∀ (fuel : Nat) (seen : List (List Char)) (bs : List (List Char)),
      bs.length ≤ fuel →
      (∀ b ∈ bs, isHeadingT (trimC b) = false) →
      ∀ b : List Char, isBlankB b = false → (normalizeFp (trimC b)).length < minLength →
        (dedupGo minLength fuel seen bs).count b = bs.count b := by
  intro fuel
  induction fuel with
  | zero =>
    intro seen bs hlen hhf b hb hshort
    cases bs with
    | nil => rfl
    | cons b' bs' => simp at hlen
  | succ fuel ih =>
    intro seen bs hlen hhf b hb hshort
    cases bs with
    | nil => rfl
    | cons b' bs' =>
      simp only [List.length_cons, Nat.add_le_add_iff_right] at hlen
      have hhf' : ∀ x ∈ bs', isHeadingT (trimC x) = false := fun x hx => hhf x (by simp [hx])
      have hhfb' : isHeadingT (trimC b') = false := hhf b' (by simp)
      rw [dedupGo]
      by_cases hblank : (trimC b').isEmpty = true
      · rw [if_pos hblank]
        have hne : b ≠ b' := by
          intro heq
          rw [← heq] at hblank
          rw [isBlankB] at hb
          rw [hb] at hblank
          cases hblank
        rw [ih seen bs' hlen hhf' b hb hshort, List.count_cons]
        simp [hne, hne.symm]
      · rw [if_neg hblank, hhfb', if_neg Bool.false_ne_true]
        by_cases hfshort : (normalizeFp (trimC b')).length < minLength
        · rw [if_pos hfshort]
          rw [List.count_cons, List.count_cons,
            ih seen bs' hlen hhf' b hb hshort]
        · rw [if_neg hfshort]
          have hne : b ≠ b' := by
            intro heq
            rw [← heq] at hfshort
            exact hfshort hshort
          by_cases hseen : normalizeFp (trimC b') ∈ seen
          · rw [if_pos hseen]
            rw [ih seen bs' hlen hhf' b hb hshort, List.count_cons]
            simp [hne, hne.symm]
          · rw [if_neg hseen]
            rw [List.count_cons, List.count_cons,
              ih _ bs' hlen hhf' b hb hshort]

/-- C1, amended: the dedup floor holds for individually-processed blocks —
in particular, on markdown whose blocks contain no headings, no non-blank
block with normalized fingerprint length `< minLength` is ever removed by
`deduplicateBlocks` (its multiplicity among the kept blocks equals its
multiplicity among the split blocks).  The exception forced by the
counterexample: the content (and heading) of a repeated heading+content
section pair is dropped by the compound section fingerprint regardless of
its own fingerprint length. -/
theorem C1_dedup_floor_amended :
    ∀ (markdown : String) (minLength : Nat),
      (∀ b ∈ splitBlocks markdown.data, isHeadingT (trimC b) = false) →
      ∀ b : List Char, isBlankB b = false → (normalizeFp (trimC b)).length < minLength →
        (dedupKept markdown minLength).count b = (splitBlocks markdown.data).count b := by
  intro markdown minLength hhf b hb hshort
  exact dedupGo_short_count minLength (splitBlocks markdown.data).length [] _
    le_rfl hhf b hb hshort

/-- Witness for C1 (amended): both copies of the short block `aa` survive. -/
theorem C1_dedup_floor_amended_witness :
    (dedupKept "aa\n\naa" 10).count "aa".data = (splitBlocks ("aa\n\naa").data).count "aa".data :=
  C1_dedup_floor_amended "aa\n\naa" 10 (by decide) "aa".data (by decide) (by decide)

/-! ## Shared string/line infrastructure -/

theorem dropWhile_head_false (p : Char → Bool) :
    ∀ (l : List Char) (c : Char) (t : List Char), l.dropWhile p = c :: t → p c = false := by
  intro l
  induction l with
  | nil => intro c t h; cases h
  | cons x l ih =>
    intro c t h
    by_cases hx : p x = true
    · rw [List.dropWhile_cons_of_pos hx] at h
      exact ih c t h
    · rw [List.dropWhile_cons_of_neg hx] at h
      cases h
      exact Bool.eq_false_iff.mpr hx

theorem dropWhile_append_of_exists (p : Char → Bool) :
    ∀ (a b : List Char), (∃ c ∈ a, p c = false) →
      (a ++ b).dropWhile p = a.dropWhile p ++ b := by
  intro a
  induction a with
  | nil => intro b h; simp at h
  | cons x a ih =>
    intro b hex
    by_cases hx : p x = true
    · rw [List.cons_append, List.dropWhile_cons_of_pos hx, List.dropWhile_cons_of_pos hx]
      apply ih
      rcases hex with ⟨c, hc, hpc⟩
      rcases List.mem_cons.mp hc with rfl | hc
      · rw [hx] at hpc; cases hpc
      · exact ⟨c, hc, hpc⟩
    · rw [List.cons_append, List.dropWhile_cons_of_neg hx, List.dropWhile_cons_of_neg hx]
      rfl

theorem dropWhile_append_of_all (p : Char → Bool) :
    ∀ (a b : List Char), (∀ c ∈ a, p c = true) →
      (a ++ b).dropWhile p = b.dropWhile p := by
  intro a
  induction a with
  | nil => intro b _; rfl
  | cons x a ih =>
    intro b hall
    have hx : p x = true := hall x (by simp)
    rw [List.cons_append, List.dropWhile_cons_of_pos hx]
    exact ih b (fun c hc => hall c (by simp [hc]))

theorem takeWhile_append_of_exists (p : Char → Bool) :
    ∀ (a b : List Char), (∃ c ∈ a, p c = false) →
      (a ++ b).takeWhile p = a.takeWhile p := by
  intro a
  induction a with
  | nil => intro b h; simp at h
  | cons x a ih =>
    intro b hex
    by_cases hx : p x = true
    · rw [List.cons_append, List.takeWhile_cons_of_pos hx, List.takeWhile_cons_of_pos hx]
      rw [ih b ?_]
      rcases hex with ⟨c, hc, hpc⟩
      rcases List.mem_cons.mp hc with rfl | hc
      · rw [hx] at hpc; cases hpc
      · exact ⟨c, hc, hpc⟩
    · rw [List.cons_append, List.takeWhile_cons_of_neg hx, List.takeWhile_cons_of_neg hx]

theorem takeWhile_dropWhile_nil (p : Char → Bool) (l : List Char) :
    (l.dropWhile p).takeWhile p = [] := by
  cases h : l.dropWhile p with
  | nil => rfl
  | cons c t => exact List.takeWhile_cons_of_neg (by simp [dropWhile_head_false p l c t h])

theorem trimR_append_nonws (x y : List Char) (h : ∃ c ∈ y, isWS c = false) :
    trimR (x ++ y) = x ++ trimR y := by
  unfold trimR
  rw [List.reverse_append,
    dropWhile_append_of_exists isWS y.reverse x.reverse
      (by rcases h with ⟨c, hc, hpc⟩; exact ⟨c, List.mem_reverse.mpr hc, hpc⟩),
    List.reverse_append, List.reverse_reverse]

theorem trimR_append_allws (x y : List Char) (h : ∀ c ∈ y, isWS c = true) :
    trimR (x ++ y) = trimR x := by
  unfold trimR
  rw [List.reverse_append,
    dropWhile_append_of_all isWS y.reverse x.reverse
      (fun c hc => h c (List.mem_reverse.mp hc))]

theorem trimL_append_allws (x y : List Char) (h : ∀ c ∈ x, isWS c = true) :
    trimL (x ++ y) = trimL y :=
  dropWhile_append_of_all isWS x y h

theorem trimL_append_nonws (x y : List Char) (h : ∃ c ∈ x, isWS c = false) :
    trimL (x ++ y) = trimL x ++ y :=
  dropWhile_append_of_exists isWS x y h

theorem trailWs_trimR (l : List Char) : trailWs (trimR l) = [] := by
  unfold trailWs trimR
  rw [List.reverse_reverse, takeWhile_dropWhile_nil]
  rfl

theorem trimR_mem {l : List Char} {c : Char} (h : c ∈ trimR l) : c ∈ l := by
  unfold trimR at h
  rw [List.mem_reverse] at h
  exact List.mem_reverse.mp ((List.dropWhile_sublist isWS).mem h)

theorem trimL_mem {l : List Char} {c : Char} (h : c ∈ trimL l) : c ∈ l :=
  (List.dropWhile_sublist isWS).mem h

theorem trimR_eq_nil_of_allws (l : List Char) (h : ∀ c ∈ l, isWS c = true) :
    trimR l = [] := by
  unfold trimR
  have : l.reverse.dropWhile isWS = [] := by
    rw [List.dropWhile_eq_nil_iff]
    exact fun c hc => h c (List.mem_reverse.mp hc)
  rw [this]
  rfl

theorem trimL_eq_nil_of_allws (l : List Char) (h : ∀ c ∈ l, isWS c = true) :
    trimL l = [] := by
  unfold trimL
  rw [List.dropWhile_eq_nil_iff]
  exact h

theorem trailWs_append_of_exists (x y : List Char) (h : ∃ c ∈ y, isWS c = false) :
    trailWs (x ++ y) = trailWs y := by
  unfold trailWs
  rw [List.reverse_append,
    takeWhile_append_of_exists isWS y.reverse x.reverse
      (by rcases h with ⟨c, hc, hpc⟩; exact ⟨c, List.mem_reverse.mpr hc, hpc⟩)]

theorem trailWs_trimL (l : List Char) (h : ∃ c ∈ l, isWS c = false) :
    trailWs (trimL l) = trailWs l := by
  conv_rhs => rw [← List.takeWhile_append_dropWhile isWS l]
  rw [trailWs_append_of_exists]
  · rfl
  · rcases h with ⟨c, hc, hpc⟩
    refine ⟨c, ?_, hpc⟩
    rcases List.mem_append.mp ((List.takeWhile_append_dropWhile isWS l).symm ▸ hc) with hc' | hc'
    · exact absurd (List.mem_takeWhile_imp hc') (by simp [hpc])
    · exact hc'

/-! ### Lines -/

theorem linesOf_ne_nil (s : List Char) : linesOf s ≠ [] := by
  cases s with
  | nil => simp [linesOf]
  | cons c t =>
    rw [linesOf]
    by_cases hc : (c == '\n') = true
    · rw [if_pos hc]; simp
    · rw [if_neg hc]; simp

theorem linesOf_no_nl : ∀ (s : List Char), ∀ l ∈ linesOf s, '\n' ∉ l := by
  intro s
  induction s with
  | nil => intro l hl; simp [linesOf] at hl; simp [hl]
  | cons c t ih =>
    intro l hl
    rw [linesOf] at hl
    by_cases hc : (c == '\n') = true
    · rw [if_pos hc] at hl
      rcases List.mem_cons.mp hl with rfl | hl
      · simp
      · exact ih l hl
    · rw [if_neg hc] at hl
      cases h : linesOf t with
      | nil => exact absurd h (linesOf_ne_nil t)
      | cons l0 ls =>
        rw [h] at hl
        simp only [List.headD_cons, List.tail_cons] at hl
        rcases List.mem_cons.mp hl with rfl | hl
        · intro hmem
          rcases List.mem_cons.mp hmem with heq | hmem
          · rw [heq] at hc; simp at hc
          · exact ih l0 (h ▸ List.mem_cons_self l0 ls) hmem
        · exact ih l (h ▸ List.mem_cons.mpr (Or.inr hl))

theorem linesOf_append_nl : ∀ (u v : List Char), linesOf (u ++ '\n' :: v) = linesOf u ++ linesOf v := by
  intro u v
  induction u with
  | nil => simp [linesOf]
  | cons c t ih =>
    rw [List.cons_append, linesOf, linesOf]
    by_cases hc : (c == '\n') = true
    · rw [if_pos hc, if_pos hc, ih]
      rfl
    · rw [if_neg hc, if_neg hc, ih]
      cases h : linesOf t with
      | nil => exact absurd h (linesOf_ne_nil t)
      | cons l0 ls => simp

theorem linesOf_of_no_nl (l : List Char) (h : '\n' ∉ l) : linesOf l = [l] := by
  induction l with
  | nil => rfl
  | cons c t ih =>
    rw [linesOf]
    have hcne : ¬((c == '\n') = true) := by
      simp only [beq_iff_eq]
      intro heq
      exact h (heq ▸ List.mem_cons_self c t)
    rw [if_neg hcne, ih (fun hm => h (List.mem_cons.mpr (Or.inr hm)))]
    rfl

theorem joinLines_cons (l : List Char) (ls : List (List Char)) (h : ls ≠ []) :
    joinLines (l :: ls) = l ++ '\n' :: joinLines ls := by
  cases ls with
  | nil => exact absurd rfl h
  | cons x xs => rfl

theorem joinLines_linesOf (s : List Char) : joinLines (linesOf s) = s := by
  induction s with
  | nil => rfl
  | cons c t ih =>
    rw [linesOf]
    by_cases hc : (c == '\n') = true
    · rw [if_pos hc]
      rw [joinLines_cons [] (linesOf t) (linesOf_ne_nil t), ih]
      have : c = '\n' := by simpa using hc
      rw [this]
      rfl
    · rw [if_neg hc]
      cases h : linesOf t with
      | nil => exact absurd h (linesOf_ne_nil t)
      | cons l0 ls =>
        simp only [List.headD_cons, List.tail_cons]
        cases ls with
        | nil =>
          have hj : joinLines [c :: l0] = c :: l0 := rfl
          rw [hj]
          have ht : t = l0 := by rw [← ih, h]; rfl
          rw [ht]
        | cons l1 ls' =>
          rw [joinLines_cons (c :: l0) (l1 :: ls') (by simp), List.cons_append]
          rw [← joinLines_cons l0 (l1 :: ls') (by simp), ← h, ih]

theorem linesOf_joinLines :
    ∀ L : List (List Char), L ≠ [] → (∀ l ∈ L, '\n' ∉ l) → linesOf (joinLines L) = L := by
  intro L
  induction L with
  | nil => intro h; exact absurd rfl h
  | cons l L' ih =>
    intro _ hnl
    cases L' with
    | nil =>
      have : joinLines [l] = l := rfl
      rw [this, linesOf_of_no_nl l (hnl l (by simp))]
    | cons l1 L'' =>
      rw [joinLines_cons l (l1 :: L'') (by simp), linesOf_append_nl,
        linesOf_of_no_nl l (hnl l (by simp)),
        ih (by simp) (fun x hx => hnl x (List.mem_cons.mpr (Or.inr hx)))]
      rfl

theorem joinLines_append_singleton (L : List (List Char)) (l : List Char) (h : L ≠ []) :
    joinLines (L ++ [l]) = joinLines L ++ '\n' :: l := by
  induction L with
  | nil => exact absurd rfl h
  | cons x L' ih =>
    cases L' with
    | nil => rfl
    | cons y L'' =>
      rw [List.cons_append, joinLines_cons x ((y :: L'') ++ [l]) (by simp),
        joinLines_cons x (y :: L'') (by simp), ih (by simp), List.append_assoc]
      rfl

/-! ### Per-line behaviour of the renderer -/

theorem fixLine_trailOK (l : List Char) : trailOK (fixLine l) := by
  unfold fixLine
  by_cases hb : hardBreakEnd l = true
  · simp only [hb, if_true]
    right
    unfold hardBreakEnd at hb
    cases hrev : l.reverse with
    | nil => rw [hrev] at hb; cases hb
    | cons c1 r1 =>
      cases r1 with
      | nil => rw [hrev] at hb; cases hb
      | cons c2 r2 =>
        cases r2 with
        | nil => rw [hrev] at hb; cases hb
        | cons c3 rest =>
          rw [hrev] at hb
          simp only [Bool.and_eq_true, beq_iff_eq, Bool.not_eq_true'] at hb
          obtain ⟨⟨hc1, hc2⟩, hc3⟩ := hb
          subst hc1; subst hc2
          have htrim : trimR l = (c3 :: rest).reverse := by
            unfold trimR
            rw [hrev, List.dropWhile_cons_of_pos (by decide),
              List.dropWhile_cons_of_pos (by decide),
              List.dropWhile_cons_of_neg (by simp [hc3])]
          rw [htrim]
          unfold trailWs
          rw [List.reverse_append, List.reverse_reverse]
          have hrev2 : ([' ', ' '] : List Char).reverse = [' ', ' '] := rfl
          rw [hrev2]
          simp only [List.cons_append, List.nil_append]
          rw [List.takeWhile_cons_of_pos (by decide), List.takeWhile_cons_of_pos (by decide),
            List.takeWhile_cons_of_neg (by simp [hc3])]
          rfl
  · simp only [hb, if_false]
    left
    exact trailWs_trimR l

theorem fixLine_no_nl (l : List Char) (h : '\n' ∉ l) : '\n' ∉ fixLine l := by
  unfold fixLine
  by_cases hb : hardBreakEnd l = true
  · simp only [hb, if_true]
    intro hmem
    rcases List.mem_append.mp hmem with hm | hm
    · exact h (trimR_mem hm)
    · simp at hm
  · simp only [hb, if_false]
    exact fun hm => h (trimR_mem hm)

theorem linesOf_trimR_trailOK :
    ∀ L : List (List Char), L ≠ [] → (∀ l ∈ L, '\n' ∉ l) → (∀ l ∈ L, trailOK l) →
      ∀ l' ∈ linesOf (trimR (joinLines L)), trailOK l' := by
  intro L
  induction L using List.reverseRecOn with
  | nil => intro h; exact absurd rfl h
  | append_singleton L0 l ih =>
    intro _ hnl hok l' hl'
    by_cases hL0 : L0 = []
    · subst hL0
      have hj : joinLines [l] = l := rfl
      rw [List.nil_append] at hl'
      rw [hj] at hl'
      by_cases hws : ∀ c ∈ l, isWS c = true
      · rw [trimR_eq_nil_of_allws l hws] at hl'
        have : linesOf ([] : List Char) = [[]] := rfl
        rw [this] at hl'
        rcases List.mem_cons.mp hl' with rfl | hl'
        · left; rfl
        · simp at hl'
      · have hnl' : '\n' ∉ trimR l :=
          fun hm => hnl l (by simp) (trimR_mem hm)
        rw [linesOf_of_no_nl _ hnl'] at hl'
        rcases List.mem_cons.mp hl' with rfl | hl'
        · left; exact trailWs_trimR l
        · simp at hl'
    · rw [joinLines_append_singleton L0 l hL0] at hl'
      by_cases hws : ∀ c ∈ l, isWS c = true
      · rw [trimR_append_allws _ _ (by
          intro c hc
          rcases List.mem_cons.mp hc with rfl | hc
          · rfl
          · exact hws c hc)] at hl'
        exact ih hL0 (fun x hx => hnl x (by simp [hx])) (fun x hx => hok x (by simp [hx])) l' hl'
      · push_neg at hws
        obtain ⟨c, hc, hpc⟩ := hws
        have hex : ∃ x ∈ '\n' :: l, isWS x = false := ⟨c, by simp [hc], by simp [hpc]⟩
        rw [trimR_append_nonws _ _ hex] at hl'
        have hex2 : ∃ x ∈ l, isWS x = false := ⟨c, hc, by simp [hpc]⟩
        have : trimR ('\n' :: l) = '\n' :: trimR l := by
          have := trimR_append_nonws ['\n'] l hex2
          simpa using this
        rw [this, linesOf_append_nl,
          linesOf_joinLines L0 hL0 (fun x hx => hnl x (by simp [hx])),
          linesOf_of_no_nl (trimR l) (fun hm => hnl l (by simp) (trimR_mem hm))] at hl'
        rcases List.mem_append.mp hl' with hm | hm
        · exact hok l' (by simp [hm])
        · rcases List.mem_cons.mp hm with rfl | hm
          · left; exact trailWs_trimR l
          · simp at hm

theorem linesOf_trimL_trailOK :
    ∀ L : List (List Char), L ≠ [] → (∀ l ∈ L, '\n' ∉ l) → (∀ l ∈ L, trailOK l) →
      ∀ l' ∈ linesOf (trimL (joinLines L)), trailOK l' := by
  intro L
  induction L with
  | nil => intro h; exact absurd rfl h
  | cons l L' ih =>
    intro _ hnl hok l' hl'
    cases L' with
    | nil =>
      have hj : joinLines [l] = l := rfl
      rw [hj] at hl'
      by_cases hws : ∀ c ∈ l, isWS c = true
      · rw [trimL_eq_nil_of_allws l hws] at hl'
        have : linesOf ([] : List Char) = [[]] := rfl
        rw [this] at hl'
        rcases List.mem_cons.mp hl' with rfl | hl'
        · left; rfl
        · simp at hl'
      · push_neg at hws
        obtain ⟨c, hc, hpc⟩ := hws
        have hnl' : '\n' ∉ trimL l := fun hm => hnl l (by simp) (trimL_mem hm)
        rw [linesOf_of_no_nl _ hnl'] at hl'
        rcases List.mem_cons.mp hl' with rfl | hl'
        · rw [trailOK, trailWs_trimL l ⟨c, hc, by simp [hpc]⟩]
          exact hok l (by simp)
        · simp at hl'
    | cons l1 L'' =>
      rw [joinLines_cons l (l1 :: L'') (by simp)] at hl'
      by_cases hws : ∀ c ∈ l, isWS c = true
      · have hressoc : l ++ '\n' :: joinLines (l1 :: L'')
            = (l ++ ['\n']) ++ joinLines (l1 :: L'') := by simp
        rw [hressoc, trimL_append_allws _ _ (by
          intro c hc
          rcases List.mem_append.mp hc with hc | hc
          · exact hws c hc
          · rcases List.mem_cons.mp hc with rfl | hc
            · rfl
            · simp at hc)] at hl'
        exact ih (by simp) (fun x hx => hnl x (by simp [hx])) (fun x hx => hok x (by simp [hx])) l' hl'
      · push_neg at hws
        obtain ⟨c, hc, hpc⟩ := hws
        rw [trimL_append_nonws _ _ ⟨c, hc, by simp [hpc]⟩, linesOf_append_nl,
          linesOf_of_no_nl (trimL l) (fun hm => hnl l (by simp) (trimL_mem hm)),
          linesOf_joinLines (l1 :: L'') (by simp)
            (fun x hx => hnl x (by simp [hx]))] at hl'
        rcases List.mem_append.mp hl' with hm | hm
        · rcases List.mem_cons.mp hm with rfl | hm
          · rw [trailOK, trailWs_trimL l ⟨c, hc, by simp [hpc]⟩]
            exact hok l (by simp)
          · simp at hm
        · exact hok l' (by simp [hm])

/-! ## C3: trailing whitespace in the renderer's output -/

/-- Counterexample to C3 as stated: the input line `a␣␣␣` ends in three
trailing spaces — two OR MORE — yet `render` trims it completely (the
regex `/\S {2}$/` only fires on exactly two trailing spaces after a
non-space), so no output line keeps two trailing spaces. -/
theorem C3_render_trailing_counterexample :
    render "a   \nb" = "a\nb\n" ∧
    linesOf (render "a   \nb").data = ["a".data, "b".data, [].reverse] := by
  constructor <;> decide

/-- C3, amended: every line of `render`'s output either carries no
trailing whitespace at all or ends in exactly the two-space hard-break
marker (preceded by a non-space); a line ending in three or more spaces,
or in whitespace other than exactly two spaces after a non-space, is
trimmed completely.  The marker case does occur: the repository's own
example `"line1  \nline2"` keeps its two trailing spaces. -/
theorem C3_render_trailing_amended :
    (∀ (raw : String), ∀ l ∈ linesOf (render raw).data, trailOK l) ∧
    render "line1  \nline2" = "line1  \nline2\n" := by
  constructor
  · intro raw l hl
    show trailOK l
    rw [show (render raw).data = renderL raw.data from rfl] at hl
    unfold renderL at hl
    set s3 := cnGo 0 (cwA (normNL raw.data)) with hs3
    set F := (linesOf s3).map fixLine with hF
    have hFne : F ≠ [] := by
      rw [hF]
      intro h
      exact linesOf_ne_nil s3 (List.map_eq_nil_iff.mp h)
    have hFnl : ∀ x ∈ F, '\n' ∉ x := by
      intro x hx
      rw [hF] at hx
      obtain ⟨y, hy, rfl⟩ := List.mem_map.mp hx
      exact fixLine_no_nl y (linesOf_no_nl s3 y hy)
    have hFok : ∀ x ∈ F, trailOK x := by
      intro x hx
      obtain ⟨y, _, rfl⟩ := List.mem_map.mp (hF ▸ hx)
      exact fixLine_trailOK y
    unfold trimC at hl
    set u := trimR (joinLines F) with hu
    have hMok : ∀ x ∈ linesOf u, trailOK x :=
      fun x hx => linesOf_trimR_trailOK F hFne hFnl hFok x hx
    have hMnl : ∀ x ∈ linesOf u, '\n' ∉ x := fun x hx => linesOf_no_nl u x hx
    have hMne : linesOf u ≠ [] := linesOf_ne_nil u
    have hujoin : joinLines (linesOf u) = u := joinLines_linesOf u
    have hl2 : l ∈ linesOf (trimL u ++ ['\n']) := hl
    have : trimL u ++ ['\n'] = trimL u ++ '\n' :: [] := rfl
    rw [this, linesOf_append_nl] at hl2
    rcases List.mem_append.mp hl2 with hm | hm
    · rw [← hujoin] at hm
      exact linesOf_trimL_trailOK (linesOf u) hMne hMnl hMok l hm
    · have : linesOf ([] : List Char) = [[]] := rfl
      rw [this] at hm
      rcases List.mem_cons.mp hm with rfl | hm
      · left; rfl
      · simp at hm
  · decide

/-- Witness for C3 (amended): the first output line of
`render "x  \ny"` is `x␣␣`, whose trailing run is exactly two spaces. -/
theorem C3_render_trailing_amended_witness :
    trailOK ("x  ".data) :=
  C3_render_trailing_amended.1 "x  \ny" "x  ".data (by decide)

/-! ## C9: the inline `code` rule reads only direct text children -/

/-- C9: dispatching a `<code>` element (outside `<pre>`) through the
built-in rules yields exactly the fragment determined by the concatenated
data of its direct `Text` children: element children contribute nothing
(and are never recursed into — the result does not depend on the walker
`wf`), and when the concatenation is empty the scan returns `none`, i.e.
the element is removed from the output.  No built-in rule before the
`code` rule matches a `code` element, and the `code` rule ends the scan. -/
theorem C9_inline_code_direct_text :
    ∀ (wf : Node → WalkerState → String) (i : Nat) (parent : Node) (st : WalkerState)
      (attribs : List (String × String)) (cs : List Node),
      st.insidePre = false →
      applyRulesGo wf (.elem "code" attribs cs) i parent st getDefaultRules
        = (if directText cs = "" then none else some (codeFragment (directText cs))) := by
  intro wf i parent st attribs cs hip
  obtain ⟨opts, rules, ld, ip, it⟩ := st
  replace hip : ip = false := hip
  subst hip
  by_cases hdt : directText cs = "" <;>
    simp [applyRulesGo, getDefaultRules, blockRules, inlineRules, matchesFilter, mkContext,
      childrenOf, hdt]

/-- Witness for C9: `<code><span>x</span></code>` has no direct text
children, so the element is removed (`none`). -/
theorem C9_inline_code_direct_text_witness :
    applyRulesGo (fun _ _ => "") (.elem "code" [] [.elem "span" [] [.text "x"]]) 0 (.doc [])
      { options := DEFAULTS, rules := [], listDepth := 0, insidePre := false,
        insideTable := false }
      getDefaultRules = none := by
  have h := C9_inline_code_direct_text (fun _ _ => "") 0 (.doc [])
    { options := DEFAULTS, rules := [], listDepth := 0, insidePre := false,
      insideTable := false }
    [] [.elem "span" [] [.text "x"]] rfl
  simpa using h

/-- Witness for C6: a priority-0 rule registered before a priority-10 rule
on the same tag loses to it after sorting. -/
theorem C6_rule_priority_witness :
    applyRulesGo (fun _ _ => "") (.elem "p" [] []) 0 (.doc [])
      { options := DEFAULTS, rules := [], listDepth := 0, insidePre := false,
        insideTable := false }
      (sortRules
        [ { filter := .tag "p", replacement := fun _ => .str "LO", priority := some 0 }
        , { filter := .tag "p", replacement := fun _ => .str "HI", priority := some 10 } ])
      = some "HI" := by
  exact C6_rule_priority.2.2 _ _ _ _ _
    { filter := .tag "p", replacement := fun _ => .str "LO", priority := some 0 }
    { filter := .tag "p", replacement := fun _ => .str "HI", priority := some 10 }
    "HI" (by decide) (by decide) rfl

-- ### hasTriple basic lemmas

theorem hasTriple_cons_of_ne (c : Char) (z : List Char) (hc : (c == '\n') = false) :
    hasTriple (c :: z) = hasTriple z := by
  cases z with
  | nil => simp [hasTriple]
  | cons a z' =>
    cases z' with
    | nil => simp [hasTriple]
    | cons b z'' => simp [hasTriple, hc]

theorem hasTriple_nl_cons_ne (c : Char) (z : List Char) (hc : (c == '\n') = false) :
    hasTriple ('\n' :: c :: z) = hasTriple (c :: z) := by
  cases z with
  | nil => simp [hasTriple]
  | cons d z' => simp [hasTriple, hc]

theorem hasTriple_cons_mono (c : Char) (z : List Char) (h : hasTriple z = true) :
    hasTriple (c :: z) = true := by
  cases z with
  | nil => simp [hasTriple] at h
  | cons a z' =>
    cases z' with
    | nil => simp [hasTriple] at h
    | cons b z'' => simp [hasTriple, h]

theorem hasTriple_append_right (x y : List Char) (h : hasTriple y = true) :
    hasTriple (x ++ y) = true := by
  induction x with
  | nil => simpa using h
  | cons c x' ih => exact hasTriple_cons_mono c _ ih

theorem hasTriple_append_left (x y : List Char) (h : hasTriple x = true) :
    hasTriple (x ++ y) = true := by
  induction x with
  | nil => simp [hasTriple] at h
  | cons c x' ih =>
    cases x' with
    | nil => simp [hasTriple] at h
    | cons a x'' =>
      cases x'' with
      | nil => simp [hasTriple] at h
      | cons b t =>
        rw [show hasTriple (c :: a :: b :: t) =
          ((c == '\n' && a == '\n' && b == '\n') || hasTriple (a :: b :: t)) from rfl] at h
        rw [show ((c :: a :: b :: t) ++ y) = c :: a :: b :: (t ++ y) from rfl]
        rw [show hasTriple (c :: a :: b :: (t ++ y)) =
          ((c == '\n' && a == '\n' && b == '\n') || hasTriple (a :: b :: (t ++ y))) from rfl]
        rcases Bool.or_eq_true_iff.mp h with hw | hr
        · simp [hw]
        · have := ih hr
          rw [show (a :: b :: (t ++ y)) = (a :: b :: t) ++ y from rfl, this]
          simp

theorem hasTriple_append_false_right (x y : List Char) (h : hasTriple (x ++ y) = false) :
    hasTriple y = false := by
  by_contra hy
  rw [hasTriple_append_right x y (by revert hy; cases hasTriple y <;> simp)] at h
  exact absurd h (by simp)

theorem hasTriple_append_false_left (x y : List Char) (h : hasTriple (x ++ y) = false) :
    hasTriple x = false := by
  by_contra hx
  rw [hasTriple_append_left x y (by revert hx; cases hasTriple x <;> simp)] at h
  exact absurd h (by simp)

theorem hasTriple_of_no_nl (l : List Char) (h : '\n' ∉ l) : hasTriple l = false := by
  induction l with
  | nil => rfl
  | cons c t ih =>
    have hc : (c == '\n') = false := by
      simp only [List.mem_cons, not_or] at h
      simpa using fun he => h.1 (by rw [he])
    rw [hasTriple_cons_of_ne c t hc]
    exact ih (fun hm => h (List.mem_cons_of_mem _ hm))

theorem hasTriple_no_nl_append (x y : List Char) (h : '\n' ∉ x) :
    hasTriple (x ++ y) = hasTriple y := by
  induction x with
  | nil => rfl
  | cons c x' ih =>
    have hc : (c == '\n') = false := by
      simp only [List.mem_cons, not_or] at h
      simpa using fun he => h.1 (by rw [he])
    rw [List.cons_append, hasTriple_cons_of_ne c _ hc]
    exact ih (fun hm => h (List.mem_cons_of_mem _ hm))

theorem hasTriple_nl_cons (z : List Char) :
    hasTriple ('\n' :: z) =
      ((z.headD 'x' == '\n' && z.tail.headD 'x' == '\n') || hasTriple z) := by
  cases z with
  | nil => simp [hasTriple]
  | cons a z' =>
    cases z' with
    | nil =>
      simp [hasTriple]
    | cons b z'' => simp [hasTriple]

-- ### hasNlWsNl basic lemmas

theorem takeWhile_append_all (p : Char → Bool) (a b : List Char)
    (h : ∀ c ∈ a, p c = true) :
    (a ++ b).takeWhile p = a ++ b.takeWhile p := by
  induction a with
  | nil => rfl
  | cons c a' ih =>
    have hc : p c = true := h c (List.mem_cons_self c a')
    simp only [List.cons_append, List.takeWhile_cons, hc, if_true]
    rw [ih (fun d hd => h d (List.mem_cons_of_mem _ hd))]

theorem hasNlWsNl_cons_eq (c : Char) (t : List Char) :
    hasNlWsNl (c :: t) = ((c == '\n' && nlWsNlHere t) || hasNlWsNl t) := rfl

theorem hasNlWsNl_cons_false {c : Char} {t : List Char}
    (h : hasNlWsNl (c :: t) = false) : hasNlWsNl t = false := by
  rw [hasNlWsNl_cons_eq] at h
  exact (Bool.or_eq_false_iff.mp h).2

theorem hasNlWsNl_append_false (x y : List Char)
    (h : hasNlWsNl (x ++ y) = false) : hasNlWsNl y = false := by
  induction x with
  | nil => exact h
  | cons c x' ih => exact ih (hasNlWsNl_cons_false h)

theorem hasNlWsNl_append_true (x y : List Char) (h : hasNlWsNl y = true) :
    hasNlWsNl (x ++ y) = true := by
  induction x with
  | nil => exact h
  | cons c x' ih =>
    rw [List.cons_append, hasNlWsNl_cons_eq, ih]
    simp

-- ### `cwA`/`cwB` are the identity when there is no `/\n[ \t]+\n/` match

theorem cw_id_joint : ∀ (n : Nat) (t : List Char), t.length ≤ n →
    ((hasNlWsNl t = false → cwA t = t) ∧
     (∀ ws, (∀ c ∈ ws, isSpTab c = true) →
       hasNlWsNl ('\n' :: (ws ++ t)) = false → cwB ws t = '\n' :: (ws ++ t))) := by
  intro n
  induction n with
  | zero =>
    intro t ht
    have ht0 : t = [] := List.eq_nil_of_length_eq_zero (Nat.le_zero.mp ht)
    subst ht0
    constructor
    · intro _; rfl
    · intro ws _ _; simp [cwB]
  | succ n ih =>
    intro t ht
    cases t with
    | nil =>
      constructor
      · intro _; rfl
      · intro ws _ _; simp [cwB]
    | cons c t' =>
      have hlen : t'.length ≤ n := by
        simpa using Nat.le_of_succ_le_succ (by simpa using ht)
      constructor
      · intro hA
        by_cases hc : (c == '\n') = true
        · have hceq : c = '\n' := eq_of_beq hc
          subst hceq
          rw [cwA, if_pos (show ('\n' == '\n') = true from rfl)]
          have hB' := (ih t' hlen).2 [] (by intro d hd; cases hd)
            (by simpa using hA)
          simpa using hB'
        · rw [cwA, if_neg (by simpa using hc)]
          have hA' : hasNlWsNl t' = false := hasNlWsNl_cons_false hA
          rw [(ih t' hlen).1 hA']
      · intro ws hws hB
        by_cases hsp : isSpTab c = true
        · rw [cwB, if_pos hsp]
          have hws' : ∀ d ∈ ws ++ [c], isSpTab d = true := by
            intro d hd
            rcases List.mem_append.mp hd with h1 | h1
            · exact hws d h1
            · rw [List.mem_singleton.mp h1]; exact hsp
          have heq : (ws ++ [c]) ++ t' = ws ++ c :: t' := by
            rw [List.append_assoc]; rfl
          have := (ih t' hlen).2 (ws ++ [c]) hws' (by rw [heq]; exact hB)
          rw [this, heq]
        · by_cases hc : (c == '\n') = true
          · have hceq : c = '\n' := eq_of_beq hc
            subst hceq
            by_cases hemp : ws = []
            · subst hemp
              rw [cwB, if_neg hsp, if_pos (show ('\n' == '\n') = true from rfl),
                if_pos (show (List.isEmpty ([] : List Char)) = true from rfl)]
              have hB' : hasNlWsNl ('\n' :: ([] ++ t')) = false := by
                have := hasNlWsNl_cons_false hB
                simpa using this
              have := (ih t' hlen).2 [] (by intro d hd; cases hd) hB'
              simp only [List.nil_append] at this ⊢
              rw [this]
            · exfalso
              have h1 : nlWsNlHere (ws ++ '\n' :: t') = true := by
                rw [nlWsNlHere, pWsNl]
                have ht1 : (ws ++ '\n' :: t').takeWhile isSpTab = ws := by
                  rw [takeWhile_append_all isSpTab ws _ hws]
                  simp [List.takeWhile_cons, isSpTab]
                have ht2 : (ws ++ '\n' :: t').dropWhile isSpTab = '\n' :: t' := by
                  rw [dropWhile_append_of_all isSpTab ws _ hws]
                  simp [List.dropWhile_cons, isSpTab]
                rw [ht1, ht2]
                simp [List.isEmpty_iff, hemp]
              rw [hasNlWsNl_cons_eq, h1] at hB
              simp at hB
          · rw [cwB, if_neg hsp, if_neg hc]
            have h1 : hasNlWsNl t' = false := by
              have h2 := hasNlWsNl_cons_false hB
              have h3 := hasNlWsNl_append_false ws _ h2
              exact hasNlWsNl_cons_false h3
            rw [(ih t' hlen).1 h1]

theorem cwA_id (t : List Char) (h : hasNlWsNl t = false) : cwA t = t :=
  (cw_id_joint t.length t le_rfl).1 h


-- ### a `/\n[ \t]+\n/` match exhibits a whitespace-only line

theorem isWS_of_isSpTab {c : Char} (h : isSpTab c = true) : isWS c = true := by
  rcases Bool.or_eq_true_iff.mp h with h1 | h1 <;> simp [isWS, h1]

theorem hasNlWsNl_line : ∀ s : List Char, hasNlWsNl s = true →
    ∃ l ∈ (linesOf s).tail, l ≠ [] ∧ ∀ c ∈ l, isSpTab c = true := by
  intro s
  induction s with
  | nil => intro h; simp [hasNlWsNl] at h
  | cons c t ih =>
    intro h
    rw [hasNlWsNl_cons_eq] at h
    rcases Bool.or_eq_true_iff.mp h with h1 | h1
    · obtain ⟨hc, hh⟩ := Bool.and_eq_true_iff.mp h1
      have hceq : c = '\n' := eq_of_beq hc
      subst hceq
      rw [nlWsNlHere] at hh
      obtain ⟨hne, hp⟩ := Bool.and_eq_true_iff.mp hh
      rw [pWsNl] at hp
      cases hdw : t.dropWhile isSpTab with
      | nil => rw [hdw] at hp; simp at hp
      | cons d r =>
        rw [hdw] at hp
        simp only [List.headD_cons] at hp
        have hdeq : d = '\n' := eq_of_beq hp
        subst hdeq
        have hsplit : t = t.takeWhile isSpTab ++ '\n' :: r := by
          rw [← hdw]
          exact (List.takeWhile_append_dropWhile isSpTab t).symm
        have hwall : ∀ x ∈ t.takeWhile isSpTab, isSpTab x = true := by
          intro x hx
          have := List.mem_takeWhile_imp hx
          simpa using this
        have hwnl : '\n' ∉ t.takeWhile isSpTab := fun hm => by
          simpa [isSpTab] using hwall '\n' hm
        have hlines : linesOf t = [t.takeWhile isSpTab] ++ linesOf r := by
          conv_lhs => rw [hsplit]
          rw [linesOf_append_nl, linesOf_of_no_nl _ hwnl]
        have hwne : t.takeWhile isSpTab ≠ [] := by
          intro h0; rw [h0] at hne; simp at hne
        refine ⟨t.takeWhile isSpTab, ?_, hwne, hwall⟩
        rw [linesOf, if_pos (show ('\n' == '\n') = true from rfl)]
        simp only [List.tail_cons]
        rw [hlines]
        exact List.mem_append.mpr (Or.inl (by simp))
    · obtain ⟨l, hl, hprop⟩ := ih h1
      refine ⟨l, ?_, hprop⟩
      rw [linesOf]
      by_cases hc : (c == '\n') = true
      · rw [if_pos hc]
        simp only [List.tail_cons]
        exact List.mem_of_mem_tail hl
      · rw [if_neg hc]
        simpa using hl

theorem no_wsline_no_nlwsnl (s : List Char) (h : hasWsOnlyLine s = false) :
    hasNlWsNl s = false := by
  by_contra hcon
  have h1 : hasNlWsNl s = true := by
    revert hcon; cases hasNlWsNl s <;> simp
  obtain ⟨l, hl, hne, hall⟩ := hasNlWsNl_line s h1
  have hl' : l ∈ linesOf s := List.mem_of_mem_tail hl
  have hpred : (!l.isEmpty && l.all isWS) = true := by
    have h2 : l.isEmpty = false := by
      cases l with
      | nil => exact absurd rfl hne
      | cons a l' => rfl
    have h3 : l.all isWS = true :=
      List.all_eq_true.mpr (fun x hx => isWS_of_isSpTab (hall x hx))
    rw [h2, h3]; rfl
  have : hasWsOnlyLine s = true := by
    rw [hasWsOnlyLine]
    exact List.any_eq_true.mpr ⟨l, hl', hpred⟩
  rw [this] at h
  exact absurd h (by simp)

-- ### `cnGo` output has no triple newline

theorem emitNl_zero : emitNl 0 = [] := rfl

theorem emitNl_one : emitNl 1 = ['\n'] := rfl

theorem emitNl_two : emitNl 2 = ['\n', '\n'] := rfl

theorem emitNl_big (k : Nat) : emitNl (k + 3) = ['\n', '\n'] := by
  rw [emitNl, if_pos (by omega)]
  rfl

theorem hasTriple_two_nl_cons_ne (c : Char) (z : List Char) (hc : (c == '\n') = false)
    (hz : hasTriple z = false) : hasTriple ('\n' :: '\n' :: c :: z) = false := by
  rw [hasTriple_nl_cons]
  simp only [List.headD_cons, List.tail_cons]
  rw [hasTriple_nl_cons_ne c _ hc, hasTriple_cons_of_ne c _ hc, hz]
  simp [hc]

theorem cnGo_no_triple : ∀ (t : List Char) (k : Nat), hasTriple (cnGo k t) = false := by
  intro t
  induction t with
  | nil =>
    intro k
    rw [cnGo]
    rcases k with _ | _ | _ | k
    · rfl
    · rfl
    · rfl
    · rw [emitNl_big]; rfl
  | cons c t ih =>
    intro k
    by_cases hc : (c == '\n') = true
    · rw [cnGo, if_pos hc]; exact ih (k + 1)
    · rw [cnGo, if_neg hc]
      have hcf : (c == '\n') = false := by
        revert hc; cases (c == '\n') <;> simp
      rcases k with _ | _ | _ | k
      · rw [emitNl_zero, List.nil_append, hasTriple_cons_of_ne c _ hcf]
        exact ih 0
      · rw [emitNl_one,
          show (['\n'] ++ c :: cnGo 0 t) = '\n' :: c :: cnGo 0 t from rfl,
          hasTriple_nl_cons_ne c _ hcf, hasTriple_cons_of_ne c _ hcf]
        exact ih 0
      · rw [emitNl_two,
          show (['\n', '\n'] ++ c :: cnGo 0 t) = '\n' :: '\n' :: c :: cnGo 0 t from rfl]
        exact hasTriple_two_nl_cons_ne c _ hcf (ih 0)
      · rw [emitNl_big,
          show (['\n', '\n'] ++ c :: cnGo 0 t) = '\n' :: '\n' :: c :: cnGo 0 t from rfl]
        exact hasTriple_two_nl_cons_ne c _ hcf (ih 0)

-- ### `cnGo` does not create a `/\n[ \t]+\n/` match

theorem pWsNl_cnGo0 : ∀ t : List Char, pWsNl (cnGo 0 t) = true → pWsNl t = true := by
  intro t
  induction t with
  | nil =>
    intro h
    rw [cnGo, emitNl_zero] at h
    simp [pWsNl] at h
  | cons c t ih =>
    intro h
    by_cases hc : (c == '\n') = true
    · have hceq : c = '\n' := eq_of_beq hc
      subst hceq
      rw [pWsNl, List.dropWhile_cons, if_neg (by decide)]
      simp
    · rw [cnGo, if_neg hc, emitNl_zero, List.nil_append] at h
      by_cases hsp : isSpTab c = true
      · rw [pWsNl, List.dropWhile_cons, if_pos hsp] at h
        rw [pWsNl, List.dropWhile_cons, if_pos hsp]
        exact ih (by rw [pWsNl]; exact h)
      · rw [pWsNl, List.dropWhile_cons, if_neg hsp] at h
        simp only [List.headD_cons] at h
        exact absurd h hc

theorem nlWsNlHere_cons_spTab (c : Char) (X : List Char) (hsp : isSpTab c = true) :
    nlWsNlHere (c :: X) = pWsNl X := by
  rw [nlWsNlHere, pWsNl, List.takeWhile_cons, if_pos hsp, List.dropWhile_cons,
    if_pos hsp, pWsNl]
  simp

theorem nlWsNlHere_cons_not_spTab (c : Char) (X : List Char) (hsp : isSpTab c = false) :
    nlWsNlHere (c :: X) = false := by
  rw [nlWsNlHere, List.takeWhile_cons, if_neg (by simp [hsp])]
  simp

theorem hasNlWsNl_spTab_block (k : Nat) (c : Char) (t : List Char) (hsp : isSpTab c = true)
    (hp : pWsNl t = true) :
    hasNlWsNl (List.replicate (k + 1) '\n' ++ c :: t) = true := by
  have h1 : nlWsNlHere (c :: t) = true := by
    rw [nlWsNlHere_cons_spTab c t hsp]; exact hp
  have h2 : hasNlWsNl ('\n' :: c :: t) = true := by
    rw [hasNlWsNl_cons_eq, h1]
    simp
  have h3 : List.replicate (k + 1) '\n' ++ c :: t =
      List.replicate k '\n' ++ ('\n' :: c :: t) := by
    rw [List.replicate_succ' k '\n', List.append_assoc]
    rfl
  rw [h3]
  exact hasNlWsNl_append_true _ _ h2

theorem cnGo_no_nlwsnl : ∀ (t : List Char) (k : Nat),
    hasNlWsNl (List.replicate k '\n' ++ t) = false → hasNlWsNl (cnGo k t) = false := by
  intro t
  induction t with
  | nil =>
    intro k _
    rw [cnGo]
    rcases k with _ | _ | _ | k
    · rfl
    · decide
    · decide
    · rw [emitNl_big]; decide
  | cons c t ih =>
    intro k hk
    by_cases hc : (c == '\n') = true
    · have hceq : c = '\n' := eq_of_beq hc
      subst hceq
      rw [cnGo, if_pos (show ('\n' == '\n') = true from rfl)]
      apply ih (k + 1)
      rw [List.replicate_succ' k '\n', List.append_assoc]
      exact hk
    · rw [cnGo, if_neg hc]
      have hcf : (c == '\n') = false := by
        revert hc; cases (c == '\n') <;> simp
      have hX : hasNlWsNl (cnGo 0 t) = false := by
        apply ih 0
        rw [show (List.replicate 0 '\n' : List Char) = [] from rfl, List.nil_append]
        have hsplit : List.replicate k '\n' ++ c :: t =
            (List.replicate k '\n' ++ [c]) ++ t := by
          rw [List.append_assoc]; rfl
        rw [hsplit] at hk
        exact hasNlWsNl_append_false _ _ hk
      rcases k with _ | k
      · rw [emitNl_zero, List.nil_append, hasNlWsNl_cons_eq, hX, hcf]
        simp
      · have hhere : nlWsNlHere (c :: cnGo 0 t) = false := by
          by_cases hsp : isSpTab c = true
          · rw [nlWsNlHere_cons_spTab c _ hsp]
            by_cases hp : pWsNl (cnGo 0 t) = true
            · exfalso
              have hpt : pWsNl t = true := pWsNl_cnGo0 t hp
              have hcontra := hasNlWsNl_spTab_block k c t hsp hpt
              rw [hcontra] at hk
              exact absurd hk (by simp)
            · revert hp; cases pWsNl (cnGo 0 t) <;> simp
          · exact nlWsNlHere_cons_not_spTab c _
              (by revert hsp; cases isSpTab c <;> simp)
        rcases k with _ | _ | k
        · rw [emitNl_one,
            show (['\n'] ++ c :: cnGo 0 t) = '\n' :: c :: cnGo 0 t from rfl,
            hasNlWsNl_cons_eq, hasNlWsNl_cons_eq, hhere, hX, hcf]
          simp
        · rw [emitNl_two,
            show (['\n', '\n'] ++ c :: cnGo 0 t) = '\n' :: '\n' :: c :: cnGo 0 t from rfl,
            hasNlWsNl_cons_eq, hasNlWsNl_cons_eq, hasNlWsNl_cons_eq, hhere, hX, hcf,
            nlWsNlHere_cons_not_spTab '\n' _ (by decide)]
          simp
        · rw [emitNl_big,
            show (['\n', '\n'] ++ c :: cnGo 0 t) = '\n' :: '\n' :: c :: cnGo 0 t from rfl,
            hasNlWsNl_cons_eq, hasNlWsNl_cons_eq, hasNlWsNl_cons_eq, hhere, hX, hcf,
            nlWsNlHere_cons_not_spTab '\n' _ (by decide)]
          simp


-- ### `cnGo` preserves the non-empty lines

theorem filterNE_nil_cons (L : List (List Char)) : filterNE ([] :: L) = filterNE L := by
  simp [filterNE]

theorem filterNE_cons_ne (l : List Char) (L : List (List Char)) (h : l ≠ []) :
    filterNE (l :: L) = l :: filterNE L := by
  cases l with
  | nil => exact absurd rfl h
  | cons a l' => simp [filterNE]

theorem filterNE_replicate_append (m : Nat) (L : List (List Char)) :
    filterNE (List.replicate m [] ++ L) = filterNE L := by
  induction m with
  | zero => rfl
  | succ m ih =>
    rw [List.replicate_succ, List.cons_append, filterNE_nil_cons, ih]

theorem filterNE_mem {l : List Char} {L : List (List Char)} (h : l ∈ filterNE L) :
    l ∈ L := List.mem_of_mem_filter h

theorem mem_filterNE {l : List Char} {L : List (List Char)} (h : l ∈ L) (hne : l ≠ []) :
    l ∈ filterNE L := by
  rw [filterNE]
  refine List.mem_filter.mpr ⟨h, ?_⟩
  cases l with
  | nil => exact absurd rfl hne
  | cons a l' => rfl

theorem linesOf_headD (s : List Char) :
    (linesOf s).headD [] = s.takeWhile (fun c => !(c == '\n')) := by
  induction s with
  | nil => rfl
  | cons c t ih =>
    rw [linesOf]
    by_cases hc : (c == '\n') = true
    · rw [if_pos hc, List.takeWhile_cons, if_neg (by simp [hc])]
      rfl
    · rw [if_neg hc, List.takeWhile_cons, if_pos (by simp; simpa using hc)]
      simp only [List.headD_cons]
      rw [ih]

theorem cnGo_head_nl : ∀ (t : List Char) (k : Nat), 1 ≤ k → ∃ r, cnGo k t = '\n' :: r := by
  intro t
  induction t with
  | nil =>
    intro k hk
    rw [cnGo]
    rcases k with _ | _ | _ | k
    · exact absurd hk (by omega)
    · exact ⟨[], by rw [emitNl_one]⟩
    · exact ⟨['\n'], by rw [emitNl_two]⟩
    · exact ⟨['\n'], by rw [emitNl_big]⟩
  | cons c t ih =>
    intro k hk
    by_cases hc : (c == '\n') = true
    · rw [cnGo, if_pos hc]
      exact ih (k + 1) (by omega)
    · rw [cnGo, if_neg hc]
      rcases k with _ | _ | _ | k
      · exact absurd hk (by omega)
      · exact ⟨c :: cnGo 0 t, by rw [emitNl_one]; rfl⟩
      · exact ⟨'\n' :: c :: cnGo 0 t, by rw [emitNl_two]; rfl⟩
      · exact ⟨'\n' :: c :: cnGo 0 t, by rw [emitNl_big]; rfl⟩

theorem cnGo0_firstline : ∀ t : List Char,
    (cnGo 0 t).takeWhile (fun c => !(c == '\n')) = t.takeWhile (fun c => !(c == '\n')) := by
  intro t
  induction t with
  | nil => rw [cnGo, emitNl_zero]
  | cons c t ih =>
    by_cases hc : (c == '\n') = true
    · rw [cnGo, if_pos hc]
      obtain ⟨r, hr⟩ := cnGo_head_nl t 1 (by omega)
      rw [hr, List.takeWhile_cons, if_neg (by simp), List.takeWhile_cons,
        if_neg (by simp [hc])]
    · rw [cnGo, if_neg hc, emitNl_zero, List.nil_append, List.takeWhile_cons,
        if_pos (by simp; simpa using hc), List.takeWhile_cons,
        if_pos (by simp; simpa using hc), ih]

theorem linesOf_replicate_nl (m : Nat) (u : List Char) :
    linesOf (List.replicate m '\n' ++ u) = List.replicate m [] ++ linesOf u := by
  induction m with
  | zero => rfl
  | succ m ih =>
    rw [List.replicate_succ, List.cons_append, linesOf,
      if_pos (show ('\n' == '\n') = true from rfl), ih, List.replicate_succ,
      List.cons_append]

theorem cnGo_filterNE : ∀ (t : List Char) (k : Nat),
    filterNE (linesOf (cnGo k t)) = filterNE (linesOf t) := by
  intro t
  induction t with
  | nil =>
    intro k
    rw [cnGo,
      show emitNl k = List.replicate (if 3 ≤ k then 2 else k) '\n' from rfl,
      show (List.replicate (if 3 ≤ k then 2 else k) '\n' : List Char) =
        List.replicate (if 3 ≤ k then 2 else k) '\n' ++ [] from (List.append_nil _).symm,
      linesOf_replicate_nl, filterNE_replicate_append]
  | cons c t ih =>
    intro k
    by_cases hc : (c == '\n') = true
    · rw [cnGo, if_pos hc, ih (k + 1), linesOf, if_pos hc, filterNE_nil_cons]
    · rw [cnGo, if_neg hc,
        show emitNl k = List.replicate (if 3 ≤ k then 2 else k) '\n' from rfl,
        linesOf_replicate_nl, filterNE_replicate_append]
      have hhead : (linesOf (cnGo 0 t)).headD [] = (linesOf t).headD [] := by
        rw [linesOf_headD, linesOf_headD, cnGo0_firstline]
      rw [linesOf, if_neg hc, linesOf, if_neg hc]
      have htails : filterNE ((linesOf (cnGo 0 t)).tail) = filterNE ((linesOf t).tail) := by
        have h0 := ih 0
        cases hLX : linesOf (cnGo 0 t) with
        | nil => exact absurd hLX (linesOf_ne_nil _)
        | cons hx TX =>
          cases hLT : linesOf t with
          | nil => exact absurd hLT (linesOf_ne_nil _)
          | cons ht TT =>
            rw [hLX, hLT] at h0 hhead
            simp only [List.headD_cons] at hhead
            subst hhead
            simp only [List.tail_cons]
            by_cases hemp : hx = []
            · subst hemp
              rw [filterNE_nil_cons, filterNE_nil_cons] at h0
              exact h0
            · rw [filterNE_cons_ne hx TX hemp, filterNE_cons_ne hx TT hemp] at h0
              exact List.tail_eq_of_cons_eq h0
      rw [hhead, filterNE_cons_ne _ _ (by simp), filterNE_cons_ne _ _ (by simp), htails]


-- ### joining lines without adjacent interior empties has no triple

theorem hasEE_cons_mono (l : List Char) (F : List (List Char)) (h : hasEE F = true) :
    hasEE (l :: F) = true := by
  cases F with
  | nil => simp [hasEE] at h
  | cons a F1 =>
    cases F1 with
    | nil => simp [hasEE] at h
    | cons b F2 =>
      cases F2 with
      | nil => simp [hasEE] at h
      | cons c F3 =>
        rw [show hasEE (l :: a :: b :: c :: F3) =
          ((a.isEmpty && b.isEmpty) || hasEE (a :: b :: c :: F3)) from rfl, h]
        simp

theorem joinLines_triple_of_empties (L1 : List (List Char)) (a d : List Char)
    (L2 : List (List Char)) :
    hasTriple (joinLines (L1 ++ a :: [] :: [] :: d :: L2)) = true := by
  induction L1 with
  | nil =>
    rw [List.nil_append, joinLines_cons a _ (by simp), joinLines_cons [] _ (by simp),
      joinLines_cons [] _ (by simp)]
    apply hasTriple_append_right
    simp [hasTriple]
  | cons l L1' ih =>
    rw [List.cons_append, joinLines_cons l _ (by simp)]
    apply hasTriple_append_right
    exact hasTriple_cons_mono '\n' _ ih

theorem trimR_eq_nil_allws (l : List Char) (h : trimR l = []) : ∀ c ∈ l, isWS c = true := by
  rw [trimR] at h
  have h2 : l.reverse.dropWhile isWS = [] := by
    have := congrArg List.reverse h
    simpa using this
  intro c hc
  exact List.dropWhile_eq_nil_iff.mp h2 c (List.mem_reverse.mpr hc)

theorem fixLine_eq_nil (l : List Char) (h : fixLine l = []) : ∀ c ∈ l, isWS c = true := by
  rw [fixLine] at h
  by_cases hb : hardBreakEnd l = true
  · rw [if_pos hb] at h
    exact absurd h (by simp)
  · rw [if_neg hb] at h
    exact trimR_eq_nil_allws l h

theorem hasEE_map_false (L : List (List Char))
    (hdec : ∀ (L1 : List (List Char)) (a d : List Char) (L2 : List (List Char)),
      L = L1 ++ a :: [] :: [] :: d :: L2 → False)
    (hpt : ∀ l ∈ L, fixLine l = [] → l = []) :
    hasEE (L.map fixLine) = false := by
  induction L with
  | nil => rfl
  | cons a r1 ih =>
    cases r1 with
    | nil => rfl
    | cons b r2 =>
      cases r2 with
      | nil => rfl
      | cons c r3 =>
        cases r3 with
        | nil => rfl
        | cons d r4 =>
          rw [show ((a :: b :: c :: d :: r4).map fixLine) =
            fixLine a :: fixLine b :: fixLine c :: fixLine d :: r4.map fixLine from rfl,
            show hasEE (fixLine a :: fixLine b :: fixLine c :: fixLine d :: r4.map fixLine) =
              (((fixLine b).isEmpty && (fixLine c).isEmpty) ||
                hasEE (fixLine b :: fixLine c :: fixLine d :: r4.map fixLine)) from rfl]
          have h1 : ((fixLine b).isEmpty && (fixLine c).isEmpty) = false := by
            by_contra hcon
            have hcon' : ((fixLine b).isEmpty && (fixLine c).isEmpty) = true := by
              revert hcon
              cases ((fixLine b).isEmpty && (fixLine c).isEmpty) <;> simp
            obtain ⟨hbe, hce⟩ := Bool.and_eq_true_iff.mp hcon'
            have hb0 : b = [] := hpt b (by simp) (List.isEmpty_iff.mp hbe)
            have hc0 : c = [] := hpt c (by simp) (List.isEmpty_iff.mp hce)
            exact hdec [] a d r4 (by rw [hb0, hc0]; rfl)
          rw [h1]
          have h2 := ih
            (fun L1 x y L2 he => hdec (a :: L1) x y L2 (by rw [he]; rfl))
            (fun l hl => hpt l (List.mem_cons_of_mem _ hl))
          rw [show ((b :: c :: d :: r4).map fixLine) =
            fixLine b :: fixLine c :: fixLine d :: r4.map fixLine from rfl] at h2
          rw [h2]
          rfl

theorem head_ne_nl_of_not_mem {e : Char} {es : List Char} (h : '\n' ∉ e :: es) :
    (e == '\n') = false := by
  rw [beq_eq_false_iff_ne]
  intro he
  subst he
  exact h (by simp)

theorem joinLines_no_triple : ∀ F : List (List Char),
    (∀ l ∈ F, '\n' ∉ l) → hasEE F = false → hasTriple (joinLines F) = false := by
  intro F
  induction F with
  | nil => intro _ _; rfl
  | cons l F' ih =>
    intro hnl hee
    cases F' with
    | nil =>
      rw [show joinLines [l] = l from rfl]
      exact hasTriple_of_no_nl l (hnl l (by simp))
    | cons f2 F'' =>
      rw [joinLines_cons l _ (by simp),
        hasTriple_no_nl_append l _ (hnl l (by simp))]
      have hEE' : hasEE (f2 :: F'') = false := by
        by_contra hcon
        have hcon' : hasEE (f2 :: F'') = true := by
          revert hcon; cases hasEE (f2 :: F'') <;> simp
        rw [hasEE_cons_mono l _ hcon'] at hee
        exact absurd hee (by simp)
      have hJ : hasTriple (joinLines (f2 :: F'')) = false :=
        ih (fun x hx => hnl x (List.mem_cons_of_mem _ hx)) hEE'
      rw [hasTriple_nl_cons, hJ]
      have hwin : ((joinLines (f2 :: F'')).headD 'x' == '\n' &&
          ((joinLines (f2 :: F'')).tail.headD 'x' == '\n')) = false := by
        cases F'' with
        | nil =>
          rw [show joinLines [f2] = f2 from rfl]
          cases f2 with
          | nil => rfl
          | cons e es =>
            rw [List.headD_cons, head_ne_nl_of_not_mem (hnl (e :: es) (by simp))]
            rfl
        | cons f3 F3 =>
          rw [joinLines_cons f2 _ (by simp)]
          cases f2 with
          | cons e es =>
            rw [List.cons_append, List.headD_cons,
              head_ne_nl_of_not_mem (hnl (e :: es) (by simp))]
            rfl
          | nil =>
            rw [List.nil_append, List.headD_cons, List.tail_cons]
            cases F3 with
            | nil =>
              rw [show joinLines [f3] = f3 from rfl]
              cases f3 with
              | nil => rfl
              | cons e3 es3 =>
                rw [List.headD_cons, head_ne_nl_of_not_mem (hnl (e3 :: es3) (by simp))]
                rfl
            | cons f4 R =>
              rw [joinLines_cons f3 _ (by simp)]
              cases f3 with
              | cons e3 es3 =>
                rw [List.cons_append, List.headD_cons,
                  head_ne_nl_of_not_mem (hnl (e3 :: es3) (by simp))]
                rfl
              | nil =>
                exfalso
                rw [show hasEE (l :: [] :: [] :: f4 :: R) =
                  ((List.isEmpty ([] : List Char) && List.isEmpty ([] : List Char)) ||
                    hasEE ([] :: [] :: f4 :: R)) from rfl] at hee
                simp at hee
      rw [hwin]
      rfl

-- ### trimming and the final newline preserve triple-freeness

theorem trimR_decomp (j : List Char) : trimR j ++ trailWs j = j := by
  rw [trimR, trailWs, ← List.reverse_append, List.takeWhile_append_dropWhile,
    List.reverse_reverse]

theorem trimL_decomp (u : List Char) : u.takeWhile isWS ++ trimL u = u := by
  rw [trimL]
  exact List.takeWhile_append_dropWhile isWS u

theorem hasTriple_trimC (j : List Char) (h : hasTriple j = false) :
    hasTriple (trimC j) = false := by
  have hv : hasTriple (trimR j) = false := by
    apply hasTriple_append_false_left _ (trailWs j)
    rw [trimR_decomp]
    exact h
  rw [trimC]
  apply hasTriple_append_false_right ((trimR j).takeWhile isWS)
  rw [trimL_decomp]
  exact hv

theorem trimR_getLast_not_ws (j : List Char) {c : Char}
    (h : (trimR j).getLast? = some c) : isWS c = false := by
  rw [trimR, List.getLast?_reverse] at h
  cases hdw : j.reverse.dropWhile isWS with
  | nil => rw [hdw] at h; simp at h
  | cons d r =>
    rw [hdw] at h
    simp only [List.head?_cons, Option.some.injEq] at h
    subst h
    exact dropWhile_head_false isWS j.reverse d r hdw

theorem getLast?_append_right (a b : List Char) (h : b ≠ []) :
    (a ++ b).getLast? = b.getLast? := by
  rw [List.getLast?_eq_head?_reverse, List.getLast?_eq_head?_reverse, List.reverse_append]
  cases hb : b.reverse with
  | nil =>
    exact absurd (by simpa using congrArg List.reverse hb) h
  | cons x xs =>
    rfl

theorem trimC_getLast_not_ws (j : List Char) {c : Char}
    (h : (trimC j).getLast? = some c) : isWS c = false := by
  rw [trimC, trimL] at h
  have hne : (trimR j).dropWhile isWS ≠ [] := by
    intro h0
    rw [h0] at h
    simp at h
  have h2 : (trimR j).getLast? = some c := by
    conv_lhs => rw [← List.takeWhile_append_dropWhile isWS (trimR j)]
    rw [getLast?_append_right _ _ hne]
    exact h
  exact trimR_getLast_not_ws j h2

theorem hasTriple_append_nl (x : List Char) (hx : hasTriple x = false)
    (hlast : ∀ c, x.getLast? = some c → (c == '\n') = false) :
    hasTriple (x ++ ['\n']) = false := by
  induction x with
  | nil => rfl
  | cons a x' ih =>
    cases x' with
    | nil => rfl
    | cons b x'' =>
      cases x'' with
      | nil =>
        have hb : (b == '\n') = false := hlast b rfl
        rw [show ([a, b] ++ ['\n']) = [a, b, '\n'] from rfl,
          show hasTriple [a, b, '\n'] =
            ((a == '\n' && b == '\n' && ('\n' == '\n')) || hasTriple [b, '\n']) from rfl,
          show hasTriple [b, '\n'] = false from rfl]
        simp [hb]
      | cons c t =>
        rw [show ((a :: b :: c :: t) ++ ['\n']) = a :: b :: c :: (t ++ ['\n']) from rfl,
          show hasTriple (a :: b :: c :: (t ++ ['\n'])) =
            ((a == '\n' && b == '\n' && c == '\n') ||
              hasTriple (b :: c :: (t ++ ['\n']))) from rfl]
        rw [show hasTriple (a :: b :: c :: t) =
          ((a == '\n' && b == '\n' && c == '\n') || hasTriple (b :: c :: t)) from rfl] at hx
        obtain ⟨hw, hr⟩ := Bool.or_eq_false_iff.mp hx
        have hlast' : ∀ c', (b :: c :: t).getLast? = some c' → (c' == '\n') = false := by
          intro c' hc'
          exact hlast c' (by rw [← hc']; exact List.getLast?_cons_cons)
        have ihr := ih hr hlast'
        rw [show (b :: c :: (t ++ ['\n'])) = (b :: c :: t) ++ ['\n'] from rfl, ihr, hw]
        rfl

/-- Counterexample to C4 as stated: the whitespace-only-line regex
`/\n[ \t]+\n/` consumes the closing newline of its match, so of two
consecutive whitespace-only lines only the first is blanked, and after the
per-line trim the output of `render "a\n \n \nb"` is `"a\n\n\nb\n"`,
which contains a run of three newlines. -/
theorem C4_render_blank_counterexample :
    hasTriple (render "a\n \n \nb").data = true := by
  decide

/-- C4, amended: for every input whose newline-normalised text has no
non-empty whitespace-only line, the output of `render` contains no run of
three or more consecutive newline characters.  (The exception forced by
the counterexample: inputs with whitespace-only lines, which the
`/\n[ \t]+\n/` pass fails to blank when they are adjacent to another
whitespace-only or empty line.) -/
theorem C4_render_blank_amended (raw : String)
    (h : hasWsOnlyLine (normNL raw.data) = false) :
    hasTriple (render raw).data = false := by
  have h1 : hasNlWsNl (normNL raw.data) = false := no_wsline_no_nlwsnl _ h
  have h2 : cwA (normNL raw.data) = normNL raw.data := cwA_id _ h1
  show hasTriple (renderL raw.data) = false
  rw [renderL, h2]
  have hT3 : hasTriple (cnGo 0 (normNL raw.data)) = false := cnGo_no_triple _ 0
  have hLnl : ∀ l ∈ linesOf (cnGo 0 (normNL raw.data)), '\n' ∉ l := linesOf_no_nl _
  have hFnl : ∀ l ∈ (linesOf (cnGo 0 (normNL raw.data))).map fixLine, '\n' ∉ l := by
    intro l hl
    obtain ⟨l0, hl0, rfl⟩ := List.mem_map.mp hl
    exact fixLine_no_nl l0 (hLnl l0 hl0)
  have hdec : ∀ (L1 : List (List Char)) (a d : List Char) (L2 : List (List Char)),
      linesOf (cnGo 0 (normNL raw.data)) = L1 ++ a :: [] :: [] :: d :: L2 → False := by
    intro L1 a d L2 he
    have htr := joinLines_triple_of_empties L1 a d L2
    rw [← he, joinLines_linesOf] at htr
    rw [htr] at hT3
    exact absurd hT3 (by simp)
  have hpt : ∀ l ∈ linesOf (cnGo 0 (normNL raw.data)), fixLine l = [] → l = [] := by
    intro l hl hfix
    by_contra hne
    have hallws : ∀ c ∈ l, isWS c = true := fixLine_eq_nil l hfix
    have hmem : l ∈ filterNE (linesOf (cnGo 0 (normNL raw.data))) := mem_filterNE hl hne
    rw [cnGo_filterNE] at hmem
    have hl1 : l ∈ linesOf (normNL raw.data) := filterNE_mem hmem
    have hws1 : hasWsOnlyLine (normNL raw.data) = true := by
      rw [hasWsOnlyLine]
      refine List.any_eq_true.mpr ⟨l, hl1, ?_⟩
      have hie : l.isEmpty = false := by
        cases l with
        | nil => exact absurd rfl hne
        | cons a l' => rfl
      rw [hie, List.all_eq_true.mpr (fun x hx => hallws x hx)]
      rfl
    rw [hws1] at h
    exact absurd h (by simp)
  have hee : hasEE ((linesOf (cnGo 0 (normNL raw.data))).map fixLine) = false :=
    hasEE_map_false _ hdec hpt
  have hJ : hasTriple
      (joinLines ((linesOf (cnGo 0 (normNL raw.data))).map fixLine)) = false :=
    joinLines_no_triple _ hFnl hee
  have hTC : hasTriple
      (trimC (joinLines ((linesOf (cnGo 0 (normNL raw.data))).map fixLine))) = false :=
    hasTriple_trimC _ hJ
  apply hasTriple_append_nl _ hTC
  intro c hc
  rw [beq_eq_false_iff_ne]
  intro hceq
  subst hceq
  have hws := trimC_getLast_not_ws _ hc
  exact absurd hws (by decide)

/-- Witness for the amended C4 at an input with blank lines and a
three-newline run, which `render` collapses. -/
theorem C4_render_blank_amended_witness :
    hasWsOnlyLine (normNL ("a\n\nb\n\n\n\nc".data)) = false ∧
    hasTriple (render "a\n\nb\n\n\n\nc").data = false :=
  ⟨by decide, C4_render_blank_amended _ (by decide)⟩

-- ### small list head lemmas

theorem headD_append_left (a b : List Char) (d : Char) (h : a ≠ []) :
    (a ++ b).headD d = a.headD d := by
  cases a with
  | nil => exact absurd rfl h
  | cons x xs => rfl

theorem head?_append_left (a b : List Char) (h : a ≠ []) :
    (a ++ b).head? = a.head? := by
  cases a with
  | nil => exact absurd rfl h
  | cons x xs => rfl


-- ### trim algebra

theorem dropWhile_idem (p : Char → Bool) (l : List Char) :
    (l.dropWhile p).dropWhile p = l.dropWhile p := by
  cases h : l.dropWhile p with
  | nil => rfl
  | cons c t =>
    exact List.dropWhile_cons_of_neg
      (by rw [dropWhile_head_false p l c t h]; exact Bool.false_ne_true)

theorem trimL_idem (x : List Char) : trimL (trimL x) = trimL x :=
  dropWhile_idem isWS x

theorem trimR_idem (x : List Char) : trimR (trimR x) = trimR x := by
  show ((x.reverse.dropWhile isWS).reverse.reverse.dropWhile isWS).reverse = _
  rw [List.reverse_reverse, dropWhile_idem]
  rfl

theorem trimL_of_head_nonws (y : List Char)
    (h : ∀ c, y.head? = some c → isWS c = false) : trimL y = y := by
  cases y with
  | nil => rfl
  | cons c t =>
    exact List.dropWhile_cons_of_neg (by rw [h c rfl]; exact Bool.false_ne_true)

theorem trimL_head_nonws (x : List Char) :
    ∀ c, (trimL x).head? = some c → isWS c = false := by
  intro c hc
  cases h : x.dropWhile isWS with
  | nil => rw [trimL, h] at hc; cases hc
  | cons d t =>
    rw [trimL, h] at hc
    simp only [List.head?_cons, Option.some.injEq] at hc
    subst hc
    exact dropWhile_head_false isWS x d t h

theorem exists_nonws_of_nonblank (b : List Char) (h : isBlankB b = false) :
    ∃ c ∈ b, isWS c = false := by
  by_contra hcon
  have hall : ∀ c ∈ b, isWS c = true := by
    intro c hc
    by_contra hcc
    exact hcon ⟨c, hc, by revert hcc; cases isWS c <;> simp⟩
  have h1 : trimR b = [] := trimR_eq_nil_of_allws b hall
  rw [isBlankB, trimC, h1] at h
  exact absurd h (by decide)

theorem trimL_ne_nil_of_nonblank (b : List Char) (h : isBlankB b = false) :
    trimL b ≠ [] := by
  intro h0
  rw [trimL] at h0
  have hall : ∀ c ∈ b, isWS c = true := List.dropWhile_eq_nil_iff.mp h0
  have h1 : trimR b = [] := trimR_eq_nil_of_allws b hall
  rw [isBlankB, trimC, h1] at h
  exact absurd h (by decide)

theorem trimR_ne_nil_of_nonblank (b : List Char) (h : isBlankB b = false) :
    trimR b ≠ [] := by
  intro h0
  rw [isBlankB, trimC, h0] at h
  exact absurd h (by decide)

theorem trimC_ne_nil_of_nonblank (b : List Char) (h : isBlankB b = false) :
    trimC b ≠ [] := by
  intro h0
  rw [isBlankB, h0] at h
  exact absurd h (by decide)

theorem trimR_trimL_comm (x : List Char) : trimR (trimL x) = trimL (trimR x) := by
  by_cases hex : ∃ c ∈ x, isWS c = false
  · obtain ⟨c, hc, hpc⟩ := hex
    have hdecomp : x.takeWhile isWS ++ trimL x = x := trimL_decomp x
    have hcD : c ∈ trimL x := by
      have hmem : c ∈ x.takeWhile isWS ++ trimL x := by rw [hdecomp]; exact hc
      rcases List.mem_append.mp hmem with h1 | h1
      · exfalso
        have h2 : isWS c = true := by simpa using List.mem_takeWhile_imp h1
        rw [hpc] at h2
        exact absurd h2 (by simp)
      · exact h1
    have hA : ∀ d ∈ x.takeWhile isWS, isWS d = true := fun d hd => by
      simpa using List.mem_takeWhile_imp hd
    have h1 : trimR x = x.takeWhile isWS ++ trimR (trimL x) := by
      conv_lhs => rw [← hdecomp]
      exact trimR_append_nonws _ _ ⟨c, hcD, hpc⟩
    rw [h1, trimL_append_allws _ _ hA]
    refine (trimL_of_head_nonws _ ?_).symm
    intro d hd
    have hne : trimR (trimL x) ≠ [] := by
      intro h0
      have hall := trimR_eq_nil_allws _ h0
      have h2 := hall c hcD
      rw [hpc] at h2
      exact absurd h2 (by simp)
    have hhead : (trimR (trimL x)).head? = (trimL x).head? := by
      conv_rhs => rw [← trimR_decomp (trimL x)]
      exact (head?_append_left _ _ hne).symm
    rw [hhead] at hd
    exact trimL_head_nonws x d hd
  · have hall : ∀ c ∈ x, isWS c = true := by
      intro c hc
      by_contra hcc
      exact hex ⟨c, hc, by revert hcc; cases isWS c <;> simp⟩
    rw [trimL_eq_nil_of_allws x hall, trimR_eq_nil_of_allws x hall]
    rfl

theorem trimC_trimL (x : List Char) : trimC (trimL x) = trimC x := by
  simp only [trimC]
  rw [trimR_trimL_comm, trimL_idem]

theorem trimC_trimR_nl (x : List Char) : trimC (trimR x ++ ['\n']) = trimC x := by
  simp only [trimC]
  rw [trimR_append_allws _ _ (by
      intro c hc
      rw [List.mem_singleton.mp hc]
      decide),
    trimR_idem]



theorem startNl_trimR (b : List Char) (h : trimR b ≠ []) :
    startNl (trimR b) = startNl b := by
  conv_rhs => rw [← trimR_decomp b]
  rw [startNl, startNl, headD_append_left _ _ _ h]

theorem endNl_trimL (b : List Char) (h : trimL b ≠ []) :
    endNl (trimL b) = endNl b := by
  conv_rhs => rw [← trimL_decomp b]
  rw [endNl, endNl, List.reverse_append]
  rw [headD_append_left _ _ _ (by simpa using h)]

theorem endNl_trimR_false (b : List Char) (h : isBlankB b = false) :
    endNl (trimR b) = false := by
  have hne : trimR b ≠ [] := trimR_ne_nil_of_nonblank b h
  cases hr : (trimR b).reverse with
  | nil => exact absurd (by simpa using congrArg List.reverse hr) hne
  | cons c t =>
    rw [endNl, hr, List.headD_cons]
    have hlast : (trimR b).getLast? = some c := by
      rw [List.getLast?_eq_head?_reverse, hr]
      rfl
    have hws := trimR_getLast_not_ws b hlast
    rw [beq_eq_false_iff_ne]
    intro he
    rw [he] at hws
    exact absurd hws (by decide)

-- ### `hasNN` basics

theorem hasNN_cons_mono (c : Char) (z : List Char) (h : hasNN z = true) :
    hasNN (c :: z) = true := by
  cases z with
  | nil => simp [hasNN] at h
  | cons a z' =>
    rw [show hasNN (c :: a :: z') = ((c == '\n' && a == '\n') || hasNN (a :: z')) from rfl, h]
    simp

theorem hasNN_append_right (x y : List Char) (h : hasNN y = true) :
    hasNN (x ++ y) = true := by
  induction x with
  | nil => exact h
  | cons c x' ih => exact hasNN_cons_mono c _ ih

theorem hasNN_append_left (x y : List Char) (h : hasNN x = true) :
    hasNN (x ++ y) = true := by
  induction x with
  | nil => simp [hasNN] at h
  | cons c x' ih =>
    cases x' with
    | nil => simp [hasNN] at h
    | cons a t =>
      rw [show hasNN (c :: a :: t) = ((c == '\n' && a == '\n') || hasNN (a :: t)) from rfl] at h
      rw [show ((c :: a :: t) ++ y) = c :: a :: (t ++ y) from rfl,
        show hasNN (c :: a :: (t ++ y)) =
          ((c == '\n' && a == '\n') || hasNN (a :: (t ++ y))) from rfl]
      rcases Bool.or_eq_true_iff.mp h with hw | hr
      · rw [hw]; rfl
      · have := ih hr
        rw [show (a :: (t ++ y)) = (a :: t) ++ y from rfl, this]
        simp

theorem hasNN_append_false_left (x y : List Char) (h : hasNN (x ++ y) = false) :
    hasNN x = false := by
  by_contra hx
  rw [hasNN_append_left x y (by revert hx; cases hasNN x <;> simp)] at h
  exact absurd h (by simp)

theorem hasNN_append_false_right (x y : List Char) (h : hasNN (x ++ y) = false) :
    hasNN y = false := by
  by_contra hy
  rw [hasNN_append_right x y (by revert hy; cases hasNN y <;> simp)] at h
  exact absurd h (by simp)

theorem hasNN_cons_false {c : Char} {z : List Char} (h : hasNN (c :: z) = false) :
    hasNN z = false := by
  cases z with
  | nil => rfl
  | cons a t =>
    rw [show hasNN (c :: a :: t) = ((c == '\n' && a == '\n') || hasNN (a :: t)) from rfl] at h
    exact (Bool.or_eq_false_iff.mp h).2

theorem hasNN_nl_cons_startNl {z : List Char} (h : hasNN ('\n' :: z) = false) :
    startNl z = false := by
  cases z with
  | nil => rfl
  | cons a t =>
    rw [show hasNN ('\n' :: a :: t) = ((('\n' : Char) == '\n' && a == '\n') || hasNN (a :: t))
      from rfl] at h
    have h1 := (Bool.or_eq_false_iff.mp h).1
    rw [startNl, List.headD_cons]
    simpa using h1

theorem endNl_cons (c : Char) (t : List Char) (h : t ≠ []) :
    endNl (c :: t) = endNl t := by
  rw [endNl, endNl, List.reverse_cons,
    headD_append_left _ _ _ (by simpa using h)]

theorem endNl_append_single (x : List Char) (c : Char) :
    endNl (x ++ [c]) = (c == '\n') := by
  rw [endNl, List.reverse_append]
  rfl

theorem startNl_append (x y : List Char) (h : x ≠ []) :
    startNl (x ++ y) = startNl x := by
  rw [startNl, startNl, headD_append_left _ _ _ h]

theorem hasNN_append_single_nonNl (x : List Char) (c : Char)
    (hx : hasNN x = false) (hc : (c == '\n') = false) :
    hasNN (x ++ [c]) = false := by
  induction x with
  | nil => simp [hasNN]
  | cons a x' ih =>
    cases x' with
    | nil =>
      rw [show ([a] ++ [c]) = [a, c] from rfl,
        show hasNN [a, c] = ((a == '\n' && c == '\n') || hasNN [c]) from rfl,
        show hasNN [c] = false from rfl, hc]
      simp
    | cons b t =>
      rw [show ((a :: b :: t) ++ [c]) = a :: b :: (t ++ [c]) from rfl,
        show hasNN (a :: b :: (t ++ [c])) =
          ((a == '\n' && b == '\n') || hasNN (b :: (t ++ [c]))) from rfl]
      rw [show hasNN (a :: b :: t) = ((a == '\n' && b == '\n') || hasNN (b :: t)) from rfl] at hx
      obtain ⟨hw, hr⟩ := Bool.or_eq_false_iff.mp hx
      have := ih hr
      rw [show (b :: (t ++ [c])) = (b :: t) ++ [c] from rfl, this, hw]
      rfl

theorem hasNN_append_nl (x : List Char)
    (hx : hasNN x = false) (he : endNl x = false) :
    hasNN (x ++ ['\n']) = false := by
  induction x with
  | nil => simp [hasNN]
  | cons a x' ih =>
    cases x' with
    | nil =>
      have ha : (a == '\n') = false := by
        rw [endNl] at he
        simpa using he
      rw [show ([a] ++ ['\n']) = [a, '\n'] from rfl,
        show hasNN [a, '\n'] = ((a == '\n' && ('\n' : Char) == '\n') || hasNN ['\n']) from rfl,
        show hasNN ['\n'] = false from rfl, ha]
      simp
    | cons b t =>
      rw [show ((a :: b :: t) ++ ['\n']) = a :: b :: (t ++ ['\n']) from rfl,
        show hasNN (a :: b :: (t ++ ['\n'])) =
          ((a == '\n' && b == '\n') || hasNN (b :: (t ++ ['\n']))) from rfl]
      rw [show hasNN (a :: b :: t) = ((a == '\n' && b == '\n') || hasNN (b :: t)) from rfl] at hx
      obtain ⟨hw, hr⟩ := Bool.or_eq_false_iff.mp hx
      have he' : endNl (b :: t) = false := by
        rw [← endNl_cons a (b :: t) (by simp)]
        exact he
      have := ih hr he'
      rw [show (b :: (t ++ ['\n'])) = (b :: t) ++ ['\n'] from rfl, this, hw]
      rfl

-- ### `splitBlocks` well-formedness

theorem sbGo_ne_nil : ∀ (t cur : List Char) (run : Nat), sbGo cur run t ≠ [] := by
  intro t
  induction t with
  | nil =>
    intro cur run
    rw [sbGo]
    by_cases h2 : 2 ≤ run
    · rw [if_pos h2]; simp
    · rw [if_neg h2]; simp
  | cons c t ih =>
    intro cur run
    rw [sbGo]
    by_cases hc : (c == '\n') = true
    · rw [if_pos hc]; exact ih cur (run + 1)
    · rw [if_neg hc]
      by_cases h2 : 2 ≤ run
      · rw [if_pos h2]; simp
      · rw [if_neg h2]; exact ih _ 0

theorem sbGo_wf : ∀ (t cur : List Char) (run : Nat),
    hasNN cur = false → endNl cur = false →
    (∀ b ∈ sbGo cur run t, hasNN b = false) ∧
    (∀ b ∈ (sbGo cur run t).tail, startNl b = false) ∧
    (cur ≠ [] → startNl cur = false → ∀ b ∈ sbGo cur run t, startNl b = false) ∧
    (∀ b ∈ (sbGo cur run t).dropLast, endNl b = false) := by
  intro t
  induction t with
  | nil =>
    intro cur run hNN hE
    rw [sbGo]
    by_cases h2 : 2 ≤ run
    · rw [if_pos h2]
      refine ⟨?_, ?_, ?_, ?_⟩
      · intro b hb
        rcases List.mem_cons.mp hb with rfl | hb
        · exact hNN
        · rw [List.mem_singleton.mp hb]; rfl
      · intro b hb
        rw [List.tail_cons] at hb
        rw [List.mem_singleton.mp hb]; rfl
      · intro _ hcs b hb
        rcases List.mem_cons.mp hb with rfl | hb
        · exact hcs
        · rw [List.mem_singleton.mp hb]; rfl
      · intro b hb
        rw [show ([cur, []] : List (List Char)).dropLast = [cur] from rfl] at hb
        rw [List.mem_singleton.mp hb]
        exact hE
    · rw [if_neg h2]
      have hrun : run = 0 ∨ run = 1 := by omega
      refine ⟨?_, ?_, ?_, ?_⟩
      · intro b hb
        rw [List.mem_singleton.mp hb]
        rcases hrun with rfl | rfl
        · simpa using hNN
        · exact hasNN_append_nl cur hNN hE
      · intro b hb
        rw [List.tail_cons] at hb
        cases hb
      · intro hcne hcs b hb
        rw [List.mem_singleton.mp hb]
        rcases hrun with rfl | rfl
        · simpa using hcs
        · rw [show (List.replicate 1 '\n' : List Char) = ['\n'] from rfl,
            startNl_append cur _ hcne]
          exact hcs
      · intro b hb
        rw [show ([cur ++ List.replicate run '\n'] : List (List Char)).dropLast = []
          from rfl] at hb
        cases hb
  | cons c t ih =>
    intro cur run hNN hE
    rw [sbGo]
    by_cases hc : (c == '\n') = true
    · rw [if_pos hc]
      exact ih cur (run + 1) hNN hE
    · rw [if_neg hc]
      have hcf : (c == '\n') = false := by
        revert hc; cases (c == '\n') <;> simp
      by_cases h2 : 2 ≤ run
      · rw [if_pos h2]
        obtain ⟨r1, r2, r3, r4⟩ := ih [c] 0 rfl (by rw [endNl]; simpa using hcf)
        have hS' : sbGo [c] 0 t ≠ [] := sbGo_ne_nil t [c] 0
        have hstart' : ∀ b ∈ sbGo [c] 0 t, startNl b = false :=
          r3 (by simp) (by rw [startNl, List.headD_cons]; exact hcf)
        refine ⟨?_, ?_, ?_, ?_⟩
        · intro b hb
          rcases List.mem_cons.mp hb with rfl | hb
          · exact hNN
          · exact r1 b hb
        · intro b hb
          rw [List.tail_cons] at hb
          exact hstart' b hb
        · intro _ hcs b hb
          rcases List.mem_cons.mp hb with rfl | hb
          · exact hcs
          · exact hstart' b hb
        · intro b hb
          cases hS : sbGo [c] 0 t with
          | nil => exact absurd hS hS'
          | cons s ss =>
            rw [hS] at hb
            rw [show (cur :: s :: ss).dropLast = cur :: (s :: ss).dropLast from rfl] at hb
            rcases List.mem_cons.mp hb with rfl | hb
            · exact hE
            · exact r4 b (by rw [hS]; exact hb)
      · rw [if_neg h2]
        have hrun : run = 0 ∨ run = 1 := by omega
        have hNN' : hasNN (cur ++ List.replicate run '\n' ++ [c]) = false := by
          rcases hrun with rfl | rfl
          · simpa using hasNN_append_single_nonNl cur c hNN hcf
          · have hx1 : hasNN (cur ++ ['\n']) = false := hasNN_append_nl cur hNN hE
            have hx2 := hasNN_append_single_nonNl (cur ++ ['\n']) c hx1 hcf
            simpa using hx2
        have hE' : endNl (cur ++ List.replicate run '\n' ++ [c]) = false := by
          rw [endNl_append_single]
          exact hcf
        obtain ⟨r1, r2, r3, r4⟩ := ih (cur ++ List.replicate run '\n' ++ [c]) 0 hNN' hE'
        refine ⟨r1, r2, ?_, r4⟩
        intro hcne hcs b hb
        refine r3 (by simp) ?_ b hb
        rw [List.append_assoc, startNl_append cur _ hcne]
        exact hcs

theorem splitBlocks_wf (s : List Char) :
    (∀ b ∈ splitBlocks s, hasNN b = false) ∧
    (∀ b ∈ (splitBlocks s).tail, startNl b = false) ∧
    (∀ b ∈ (splitBlocks s).dropLast, endNl b = false) := by
  obtain ⟨r1, r2, _, r4⟩ := sbGo_wf s [] 0 rfl rfl
  exact ⟨r1, r2, r4⟩

-- ### splitting a well-formed join recovers the blocks

theorem sbGo_start (c : Char) (t : List Char) (hc : (c == '\n') = false) :
    sbGo [] 0 (c :: t) = sbGo [c] 0 t := by
  rw [sbGo, if_neg (by rw [hc]; exact Bool.false_ne_true), if_neg (by omega)]
  rfl

theorem sbGo_acc : ∀ (l cur : List Char) (run : Nat), run ≤ 1 →
    (run = 1 → startNl l = false) → hasNN l = false →
    sbGo cur run l = [cur ++ List.replicate run '\n' ++ l] := by
  intro l
  induction l with
  | nil =>
    intro cur run hr _ _
    rw [sbGo, if_neg (by omega)]
    simp
  | cons c t ih =>
    intro cur run hr h1 hNN
    by_cases hc : (c == '\n') = true
    · have hrun : run = 0 := by
        rcases (by omega : run = 0 ∨ run = 1) with rfl | rfl
        · rfl
        · exfalso
          have := h1 rfl
          rw [startNl, List.headD_cons, hc] at this
          exact absurd this (by simp)
      subst hrun
      rw [sbGo, if_pos hc]
      have hceq : c = '\n' := eq_of_beq hc
      subst hceq
      rw [ih cur 1 (by omega) (fun _ => hasNN_nl_cons_startNl hNN) (hasNN_cons_false hNN)]
      simp
    · rw [sbGo, if_neg hc, if_neg (by omega)]
      rw [ih _ 0 (by omega) (by intro h0; cases h0) (hasNN_cons_false hNN)]
      simp

theorem sbGo_sep : ∀ (l cur : List Char) (run : Nat) (r : List Char), run ≤ 1 →
    (run = 1 → l ≠ [] ∧ startNl l = false) → hasNN l = false → endNl l = false →
    r ≠ [] → startNl r = false →
    sbGo cur run (l ++ '\n' :: '\n' :: r) =
      (cur ++ List.replicate run '\n' ++ l) :: sbGo [] 0 r := by
  intro l
  induction l with
  | nil =>
    intro cur run r hr h1 _ _ hrne hrs
    have hrun : run = 0 := by
      rcases (by omega : run = 0 ∨ run = 1) with rfl | rfl
      · rfl
      · exact absurd rfl (h1 rfl).1
    subst hrun
    simp only [List.nil_append]
    rw [sbGo, if_pos (show (('\n' : Char) == '\n') = true from rfl)]
    rw [sbGo, if_pos (show (('\n' : Char) == '\n') = true from rfl)]
    cases r with
    | nil => exact absurd rfl hrne
    | cons rc rt =>
      have hrc : (rc == '\n') = false := by
        rw [startNl, List.headD_cons] at hrs
        exact hrs
      rw [sbGo, if_neg (by rw [hrc]; exact Bool.false_ne_true), if_pos (by omega)]
      rw [sbGo_start rc rt hrc]
      simp
  | cons c t ih =>
    intro cur run r hr h1 hNN hE hrne hrs
    by_cases hc : (c == '\n') = true
    · have hrun : run = 0 := by
        rcases (by omega : run = 0 ∨ run = 1) with rfl | rfl
        · rfl
        · exfalso
          have := (h1 rfl).2
          rw [startNl, List.headD_cons, hc] at this
          exact absurd this (by simp)
      subst hrun
      have hceq : c = '\n' := eq_of_beq hc
      subst hceq
      rw [List.cons_append, sbGo, if_pos (show (('\n' : Char) == '\n') = true from rfl)]
      have htne : t ≠ [] := by
        intro h0
        subst h0
        rw [endNl] at hE
        simp at hE
      rw [ih cur 1 r (by omega)
        (fun _ => ⟨htne, hasNN_nl_cons_startNl hNN⟩)
        (hasNN_cons_false hNN)
        (by rw [← endNl_cons '\n' t htne]; exact hE)
        hrne hrs]
      simp
    · rw [List.cons_append, sbGo, if_neg hc, if_neg (by omega)]
      have hEt : endNl t = false := by
        cases t with
        | nil => rfl
        | cons d u =>
          rw [← endNl_cons c (d :: u) (by simp)]
          exact hE
      rw [ih _ 0 r (by omega) (by intro h0; cases h0) (hasNN_cons_false hNN) hEt hrne hrs]
      simp

theorem interBlocks_cons (b : List Char) (bs : List (List Char)) (h : bs ≠ []) :
    interBlocks (b :: bs) = b ++ '\n' :: '\n' :: interBlocks bs := by
  cases bs with
  | nil => exact absurd rfl h
  | cons x xs => rfl

theorem interBlocks_ne_nil (b : List Char) (bs : List (List Char)) (hb : b ≠ []) :
    interBlocks (b :: bs) ≠ [] := by
  cases bs with
  | nil => exact hb
  | cons x xs =>
    rw [interBlocks_cons b _ (by simp)]
    simp

theorem startNl_interBlocks (b : List Char) (bs : List (List Char)) (hb : b ≠ []) :
    startNl (interBlocks (b :: bs)) = startNl b := by
  cases bs with
  | nil => rfl
  | cons x xs =>
    rw [interBlocks_cons b _ (by simp), startNl_append b _ hb]

theorem splitBlocks_join : ∀ L : List (List Char), L ≠ [] →
    (∀ b ∈ L, hasNN b = false) → (∀ b ∈ L, b ≠ []) →
    startNl (L.headD []) = false →
    (∀ b ∈ L.tail, startNl b = false) → (∀ b ∈ L.dropLast, endNl b = false) →
    splitBlocks (interBlocks L) = L := by
  intro L
  induction L with
  | nil => intro h; exact absurd rfl h
  | cons l L' ih =>
    intro _ hNN hne hhd htl hdl
    cases L' with
    | nil =>
      show sbGo [] 0 (interBlocks [l]) = [l]
      rw [show interBlocks [l] = l from rfl]
      rw [sbGo_acc l [] 0 (by omega) (by intro h0; cases h0) (hNN l (by simp))]
      simp
    | cons l2 L'' =>
      rw [interBlocks_cons l _ (by simp)]
      have hl2ne : l2 ≠ [] := hne l2 (by simp)
      have hrne : interBlocks (l2 :: L'') ≠ [] := interBlocks_ne_nil l2 L'' hl2ne
      have hrs : startNl (interBlocks (l2 :: L'')) = false := by
        rw [startNl_interBlocks l2 L'' hl2ne]
        exact htl l2 (by simp)
      show sbGo [] 0 (l ++ '\n' :: '\n' :: interBlocks (l2 :: L'')) = l :: l2 :: L''
      rw [sbGo_sep l [] 0 _ (by omega) (by intro h0; cases h0) (hNN l (by simp))
        (by
          have : l ∈ (l :: l2 :: L'').dropLast := by
            rw [show (l :: l2 :: L'').dropLast = l :: (l2 :: L'').dropLast from rfl]
            simp
          exact hdl l this)
        hrne hrs]
      rw [show ([] ++ List.replicate 0 '\n' ++ l : List Char) = l from (by simp)]
      have hih := ih (by simp) (fun b hb => hNN b (by simp [hb]))
        (fun b hb => hne b (by simp [hb]))
        (by rw [List.headD_cons]; exact htl l2 (by simp))
        (fun b hb => htl b (by rw [List.tail_cons]; rw [List.tail_cons] at hb; simp [hb]))
        (fun b hb => hdl b (by
          rw [show (l :: l2 :: L'').dropLast = l :: (l2 :: L'').dropLast from rfl]
          exact List.mem_cons_of_mem l hb))
      rw [show splitBlocks (interBlocks (l2 :: L'')) = sbGo [] 0 (interBlocks (l2 :: L''))
        from rfl] at hih
      rw [hih]

-- ### sublist position transfer

theorem sublist_tail_mem : ∀ (B K : List (List Char)), K.Sublist B →
    ∀ x ∈ K.tail, x ∈ B.tail := by
  intro B
  induction B with
  | nil =>
    intro K h x hx
    rw [List.sublist_nil] at h
    subst h
    simp at hx
  | cons b B' ih =>
    intro K h x hx
    cases K with
    | nil => simp at hx
    | cons k K' =>
      rw [List.tail_cons] at hx
      cases h with
      | cons a h' =>
        simp only [List.tail_cons]
        exact h'.subset (List.mem_cons_of_mem k hx)
      | cons₂ a h' =>
        simp only [List.tail_cons]
        exact h'.subset hx

theorem reverse_dropLast_blocks (l : List (List Char)) :
    l.dropLast.reverse = l.reverse.tail := by
  induction l with
  | nil => rfl
  | cons a t ih =>
    cases t with
    | nil => rfl
    | cons b u =>
      rw [show (a :: b :: u).dropLast = a :: (b :: u).dropLast from rfl,
        List.reverse_cons, ih,
        show ((a :: b :: u : List (List Char)).reverse) = (b :: u).reverse ++ [a]
          from List.reverse_cons _ _]
      cases hr : (b :: u).reverse with
      | nil =>
        exfalso
        have h2 := congrArg List.reverse hr
        rw [List.reverse_reverse, List.reverse_nil] at h2
        exact List.cons_ne_nil b u h2
      | cons y ys => rfl

theorem sublist_dropLast_mem {K B : List (List Char)} (h : K.Sublist B) :
    ∀ x ∈ K.dropLast, x ∈ B.dropLast := by
  intro x hx
  have h' := h.reverse
  have hx' : x ∈ K.reverse.tail := by
    rw [← reverse_dropLast_blocks]
    exact List.mem_reverse.mpr hx
  have h2 := sublist_tail_mem _ _ h' x hx'
  rw [← reverse_dropLast_blocks] at h2
  exact List.mem_reverse.mp h2

-- ### the dedup loop on heading-free blocks

theorem dedupGo_out (minLength : Nat) :
    ∀ (bs : List (List Char)) (fuel : Nat) (seen : List (List Char)),
    bs.length ≤ fuel →
    (∀ b ∈ bs, isHeadingT (trimC b) = false) →
    ((dedupGo minLength fuel seen bs).Sublist bs ∧
     (∀ b ∈ dedupGo minLength fuel seen bs, isBlankB b = false) ∧
     (∀ b ∈ dedupGo minLength fuel seen bs,
        minLength ≤ (normalizeFp (trimC b)).length → normalizeFp (trimC b) ∉ seen) ∧
     List.Pairwise (fun s t => minLength ≤ (normalizeFp s).length →
        minLength ≤ (normalizeFp t).length → normalizeFp s ≠ normalizeFp t)
       ((dedupGo minLength fuel seen bs).map trimC)) := by
  intro bs
  induction bs with
  | nil =>
    intro fuel seen _ _
    have h0 : dedupGo minLength fuel seen [] = [] := by cases fuel <;> rfl
    rw [h0]
    exact ⟨List.nil_sublist _, by simp, by simp, by simp⟩
  | cons b bs' ih =>
    intro fuel seen hlen hhf
    cases fuel with
    | zero => simp at hlen
    | succ f =>
      simp only [List.length_cons, Nat.add_le_add_iff_right] at hlen
      have hhf' : ∀ x ∈ bs', isHeadingT (trimC x) = false := fun x hx => hhf x (by simp [hx])
      have hhfb : isHeadingT (trimC b) = false := hhf b (by simp)
      rw [dedupGo]
      by_cases hblank : (trimC b).isEmpty = true
      · rw [if_pos hblank]
        obtain ⟨s1, s2, s3, s4⟩ := ih f seen hlen hhf'
        exact ⟨s1.cons b, s2, s3, s4⟩
      · rw [if_neg hblank, hhfb, if_neg Bool.false_ne_true]
        have hbnb : isBlankB b = false := by
          rw [isBlankB]
          revert hblank; cases (trimC b).isEmpty <;> simp
        by_cases hshort : (normalizeFp (trimC b)).length < minLength
        · rw [if_pos hshort]
          obtain ⟨s1, s2, s3, s4⟩ := ih f seen hlen hhf'
          refine ⟨s1.cons₂ b, ?_, ?_, ?_⟩
          · intro x hx
            rcases List.mem_cons.mp hx with rfl | hx
            · exact hbnb
            · exact s2 x hx
          · intro x hx hlong
            rcases List.mem_cons.mp hx with rfl | hx
            · exact absurd hlong (by omega)
            · exact s3 x hx hlong
          · rw [List.map_cons]
            refine List.Pairwise.cons ?_ s4
            intro y _ hlongb _
            exact absurd hlongb (by omega)
        · rw [if_neg hshort]
          by_cases hseen : normalizeFp (trimC b) ∈ seen
          · rw [if_pos hseen]
            obtain ⟨s1, s2, s3, s4⟩ := ih f seen hlen hhf'
            exact ⟨s1.cons b, s2, s3, s4⟩
          · rw [if_neg hseen]
            obtain ⟨s1, s2, s3, s4⟩ := ih f (normalizeFp (trimC b) :: seen) hlen hhf'
            refine ⟨s1.cons₂ b, ?_, ?_, ?_⟩
            · intro x hx
              rcases List.mem_cons.mp hx with rfl | hx
              · exact hbnb
              · exact s2 x hx
            · intro x hx hlong
              rcases List.mem_cons.mp hx with rfl | hx
              · exact hseen
              · intro hmem
                exact s3 x hx hlong (List.mem_cons_of_mem _ hmem)
            · rw [List.map_cons]
              refine List.Pairwise.cons ?_ s4
              intro y hy hlongb hlongy
              obtain ⟨x, hx, rfl⟩ := List.mem_map.mp hy
              intro heq
              have hnot := s3 x hx hlongy
              rw [← heq] at hnot
              exact hnot (List.mem_cons_self _ _)

theorem dedupGo_keep_all (minLength : Nat) :
    ∀ (bs : List (List Char)) (fuel : Nat) (seen : List (List Char)),
    bs.length ≤ fuel →
    (∀ b ∈ bs, isHeadingT (trimC b) = false) →
    (∀ b ∈ bs, isBlankB b = false) →
    (∀ b ∈ bs, minLength ≤ (normalizeFp (trimC b)).length → normalizeFp (trimC b) ∉ seen) →
    List.Pairwise (fun s t => minLength ≤ (normalizeFp s).length →
       minLength ≤ (normalizeFp t).length → normalizeFp s ≠ normalizeFp t) (bs.map trimC) →
    dedupGo minLength fuel seen bs = bs := by
  intro bs
  induction bs with
  | nil =>
    intro fuel seen _ _ _ _ _
    cases fuel <;> rfl
  | cons b bs' ih =>
    intro fuel seen hlen hhf hnb hns hpw
    cases fuel with
    | zero => simp at hlen
    | succ f =>
      simp only [List.length_cons, Nat.add_le_add_iff_right] at hlen
      have hhfb : isHeadingT (trimC b) = false := hhf b (by simp)
      have hbnb : isBlankB b = false := hnb b (by simp)
      have hhf' : ∀ x ∈ bs', isHeadingT (trimC x) = false := fun x hx => hhf x (by simp [hx])
      have hnb' : ∀ x ∈ bs', isBlankB x = false := fun x hx => hnb x (by simp [hx])
      rw [dedupGo]
      have hblank : ¬((trimC b).isEmpty = true) := by
        rw [isBlankB] at hbnb
        rw [hbnb]
        exact Bool.false_ne_true
      rw [if_neg hblank, hhfb, if_neg Bool.false_ne_true]
      rw [List.map_cons] at hpw
      obtain ⟨hpw1, hpw2⟩ := List.pairwise_cons.mp hpw
      by_cases hshort : (normalizeFp (trimC b)).length < minLength
      · rw [if_pos hshort]
        rw [ih f seen hlen hhf' hnb'
          (fun x hx hlx => hns x (by simp [hx]) hlx) hpw2]
      · rw [if_neg hshort]
        have hlong : minLength ≤ (normalizeFp (trimC b)).length := by omega
        rw [if_neg (hns b (by simp) hlong)]
        rw [ih f (normalizeFp (trimC b) :: seen) hlen hhf' hnb' ?_ hpw2]
        intro x hx hlx hmem
        rcases List.mem_cons.mp hmem with heq | hmem'
        · exact hpw1 (trimC x) (List.mem_map.mpr ⟨x, hx, rfl⟩) hlong hlx heq.symm
        · exact hns x (by simp [hx]) hlx hmem'

-- ### joining kept blocks and trimming the edges

theorem interBlocks_mem : ∀ (L : List (List Char)) (b : List Char), b ∈ L →
    ∀ c ∈ b, c ∈ interBlocks L := by
  intro L
  induction L with
  | nil => intro b hb; cases hb
  | cons x xs ih =>
    intro b hb c hc
    cases xs with
    | nil =>
      rcases List.mem_cons.mp hb with rfl | hb
      · exact hc
      · cases hb
    | cons y ys =>
      rw [interBlocks_cons x _ (by simp)]
      rcases List.mem_cons.mp hb with rfl | hb
      · exact List.mem_append.mpr (Or.inl hc)
      · refine List.mem_append.mpr (Or.inr ?_)
        exact List.mem_cons_of_mem _ (List.mem_cons_of_mem _ (ih b hb c hc))

theorem trimR_interBlocks : ∀ (pre : List (List Char)) (kn : List Char),
    isBlankB kn = false →
    trimR (interBlocks (pre ++ [kn])) = interBlocks (pre ++ [trimR kn]) := by
  intro pre
  induction pre with
  | nil => intro kn _; rfl
  | cons p pre' ih =>
    intro kn hkn
    rw [List.cons_append, interBlocks_cons p _ (by simp),
      List.cons_append, interBlocks_cons p _ (by simp)]
    obtain ⟨c, hc, hcw⟩ := exists_nonws_of_nonblank kn hkn
    have hcmem : c ∈ interBlocks (pre' ++ [kn]) :=
      interBlocks_mem _ kn (by simp) c hc
    rw [show p ++ '\n' :: '\n' :: interBlocks (pre' ++ [kn]) =
      (p ++ ['\n', '\n']) ++ interBlocks (pre' ++ [kn]) from by simp,
      trimR_append_nonws _ _ ⟨c, hcmem, hcw⟩, ih kn hkn]
    simp

theorem trimL_interBlocks_cons (k1 : List Char) (bs : List (List Char))
    (h : ∃ c ∈ k1, isWS c = false) :
    trimL (interBlocks (k1 :: bs)) = interBlocks (trimL k1 :: bs) := by
  cases bs with
  | nil => rfl
  | cons y ys =>
    rw [interBlocks_cons k1 _ (by simp), interBlocks_cons (trimL k1) _ (by simp),
      trimL_append_nonws _ _ h]

theorem interBlocks_append_last : ∀ (pre : List (List Char)) (kn y : List Char),
    interBlocks (pre ++ [kn]) ++ y = interBlocks (pre ++ [kn ++ y]) := by
  intro pre
  induction pre with
  | nil => intro kn y; rfl
  | cons p pre' ih =>
    intro kn y
    rw [List.cons_append, interBlocks_cons p _ (by simp),
      List.cons_append, interBlocks_cons p _ (by simp), List.append_assoc]
    rw [show ('\n' :: '\n' :: interBlocks (pre' ++ [kn])) ++ y =
      '\n' :: '\n' :: (interBlocks (pre' ++ [kn]) ++ y) from rfl, ih kn y]

theorem hasNN_trimL (x : List Char) (h : hasNN x = false) : hasNN (trimL x) = false := by
  refine hasNN_append_false_right (x.takeWhile isWS) _ ?_
  rw [trimL_decomp]
  exact h

theorem hasNN_trimR (x : List Char) (h : hasNN x = false) : hasNN (trimR x) = false := by
  refine hasNN_append_false_left _ (trailWs x) ?_
  rw [trimR_decomp]
  exact h

theorem hasNN_trimC (x : List Char) (h : hasNN x = false) : hasNN (trimC x) = false :=
  hasNN_trimL (trimR x) (hasNN_trimR x h)

theorem startNl_trimL_ne (v : List Char) (h : trimL v ≠ []) : startNl (trimL v) = false := by
  cases hd : trimL v with
  | nil => exact absurd hd h
  | cons c t =>
    rw [startNl, List.headD_cons]
    have hws : isWS c = false := trimL_head_nonws v c (by rw [hd]; rfl)
    rw [beq_eq_false_iff_ne]
    intro he
    rw [he] at hws
    exact absurd hws (by decide)

theorem startNl_trimC_false (b : List Char) (h : isBlankB b = false) :
    startNl (trimC b) = false :=
  startNl_trimL_ne (trimR b) (trimC_ne_nil_of_nonblank b h)

theorem endNl_trimC_false (b : List Char) (h : isBlankB b = false) :
    endNl (trimC b) = false := by
  rw [show trimC b = trimL (trimR b) from rfl,
    endNl_trimL (trimR b) (trimC_ne_nil_of_nonblank b h)]
  exact endNl_trimR_false b h

theorem trimC_join_nl (x : List Char) : trimC (trimC x ++ ['\n']) = trimC x := by
  rw [show trimC x ++ ['\n'] = trimR (trimL x) ++ ['\n'] from by
      rw [trimC, ← trimR_trimL_comm],
    trimC_trimR_nl, trimC_trimL]
-- ### a joined kept list is a fixed point of `deduplicateBlocks`

theorem block_ne_nil_of_nonblank (b : List Char) (h : isBlankB b = false) : b ≠ [] := by
  intro h0
  rw [h0] at h
  exact absurd h (by decide)

theorem joinBlocks_dedup_fixed_core (minLength : Nat) (k1 kn : List Char)
    (mid : List (List Char))
    (hKhf : ∀ b ∈ k1 :: (mid ++ [kn]), isHeadingT (trimC b) = false)
    (hKnb : ∀ b ∈ k1 :: (mid ++ [kn]), isBlankB b = false)
    (hKNN : ∀ b ∈ k1 :: (mid ++ [kn]), hasNN b = false)
    (hKtl : ∀ b ∈ (k1 :: (mid ++ [kn])).tail, startNl b = false)
    (hKdl : ∀ b ∈ (k1 :: (mid ++ [kn])).dropLast, endNl b = false)
    (hKpw : List.Pairwise (fun s t => minLength ≤ (normalizeFp s).length →
        minLength ≤ (normalizeFp t).length → normalizeFp s ≠ normalizeFp t)
      ((k1 :: (mid ++ [kn])).map trimC)) :
    deduplicateBlocks (String.mk (joinBlocks (k1 :: (mid ++ [kn])))) minLength =
      String.mk (joinBlocks (k1 :: (mid ++ [kn]))) := by
  have hnb1 : isBlankB k1 = false := hKnb k1 (by simp)
  have hnbn : isBlankB kn = false := hKnb kn (by simp)
  have hex1 : ∃ c ∈ k1, isWS c = false := exists_nonws_of_nonblank k1 hnb1
  have htLk1 : trimL k1 ≠ [] := trimL_ne_nil_of_nonblank k1 hnb1
  have hdrop : (k1 :: (mid ++ [kn])).dropLast = k1 :: mid := by
    rw [List.dropLast_cons_of_ne_nil (show (mid ++ [kn] : List (List Char)) ≠ [] by simp),
      List.dropLast_concat]
  have hIB : joinBlocks (k1 :: (mid ++ [kn])) =
      interBlocks (trimL k1 :: (mid ++ [trimR kn ++ ['\n']])) := by
    rw [joinBlocks,
      show (k1 :: (mid ++ [kn]) : List (List Char)) = (k1 :: mid) ++ [kn] from rfl,
      show trimC (interBlocks ((k1 :: mid) ++ [kn])) =
        trimL (trimR (interBlocks ((k1 :: mid) ++ [kn]))) from rfl,
      trimR_interBlocks (k1 :: mid) kn hnbn,
      show ((k1 :: mid) ++ [trimR kn] : List (List Char)) = k1 :: (mid ++ [trimR kn])
        from rfl,
      trimL_interBlocks_cons k1 _ hex1,
      show (trimL k1 :: (mid ++ [trimR kn]) : List (List Char)) =
        (trimL k1 :: mid) ++ [trimR kn] from rfl,
      interBlocks_append_last,
      show ((trimL k1 :: mid) ++ [trimR kn ++ ['\n']] : List (List Char)) =
        trimL k1 :: (mid ++ [trimR kn ++ ['\n']]) from rfl]
  have hNNl2 : ∀ b ∈ trimL k1 :: (mid ++ [trimR kn ++ ['\n']]), hasNN b = false := by
    intro b hb
    rcases List.mem_cons.mp hb with rfl | hb
    · exact hasNN_trimL k1 (hKNN k1 (by simp))
    · rcases List.mem_append.mp hb with hb | hb
      · exact hKNN b (by simp [hb])
      · rw [List.mem_singleton.mp hb]
        exact hasNN_append_nl _ (hasNN_trimR kn (hKNN kn (by simp)))
          (endNl_trimR_false kn hnbn)
  have hnel2 : ∀ b ∈ trimL k1 :: (mid ++ [trimR kn ++ ['\n']]), b ≠ [] := by
    intro b hb
    rcases List.mem_cons.mp hb with rfl | hb
    · exact htLk1
    · rcases List.mem_append.mp hb with hb | hb
      · exact block_ne_nil_of_nonblank b (hKnb b (by simp [hb]))
      · rw [List.mem_singleton.mp hb]
        simp
  have hhdl2 : startNl ((trimL k1 :: (mid ++ [trimR kn ++ ['\n']])).headD []) = false := by
    rw [List.headD_cons]
    exact startNl_trimL_ne k1 htLk1
  have htll2 : ∀ b ∈ (trimL k1 :: (mid ++ [trimR kn ++ ['\n']])).tail,
      startNl b = false := by
    intro b hb
    rw [List.tail_cons] at hb
    rcases List.mem_append.mp hb with hb | hb
    · exact hKtl b (by rw [List.tail_cons]; exact List.mem_append.mpr (Or.inl hb))
    · rw [List.mem_singleton.mp hb]
      rw [startNl_append _ _ (trimR_ne_nil_of_nonblank kn hnbn),
        startNl_trimR kn (trimR_ne_nil_of_nonblank kn hnbn)]
      exact hKtl kn (by rw [List.tail_cons]; exact List.mem_append.mpr (Or.inr (by simp)))
  have hdll2 : ∀ b ∈ (trimL k1 :: (mid ++ [trimR kn ++ ['\n']])).dropLast,
      endNl b = false := by
    intro b hb
    rw [show (trimL k1 :: (mid ++ [trimR kn ++ ['\n']]) : List (List Char)) =
      (trimL k1 :: mid) ++ [trimR kn ++ ['\n']] from rfl,
      List.dropLast_concat] at hb
    rcases List.mem_cons.mp hb with rfl | hb
    · rw [endNl_trimL k1 htLk1]
      exact hKdl k1 (by rw [hdrop]; simp)
    · exact hKdl b (by rw [hdrop]; simp [hb])
  have hB2 : splitBlocks (interBlocks (trimL k1 :: (mid ++ [trimR kn ++ ['\n']]))) =
      trimL k1 :: (mid ++ [trimR kn ++ ['\n']]) :=
    splitBlocks_join _ (by simp) hNNl2 hnel2 hhdl2 htll2 hdll2
  have hmap : (trimL k1 :: (mid ++ [trimR kn ++ ['\n']])).map trimC =
      (k1 :: (mid ++ [kn])).map trimC := by
    simp only [List.map_cons, List.map_append, List.map_nil]
    rw [trimC_trimL, trimC_trimR_nl]
  have htrans : ∀ b ∈ trimL k1 :: (mid ++ [trimR kn ++ ['\n']]),
      ∃ k ∈ k1 :: (mid ++ [kn]), trimC b = trimC k := by
    intro b hb
    have hm : trimC b ∈ (trimL k1 :: (mid ++ [trimR kn ++ ['\n']])).map trimC :=
      List.mem_map_of_mem trimC hb
    rw [hmap] at hm
    obtain ⟨k, hk, he⟩ := List.mem_map.mp hm
    exact ⟨k, hk, he.symm⟩
  have hK2 : dedupGo minLength (trimL k1 :: (mid ++ [trimR kn ++ ['\n']])).length []
      (trimL k1 :: (mid ++ [trimR kn ++ ['\n']])) =
      trimL k1 :: (mid ++ [trimR kn ++ ['\n']]) := by
    refine dedupGo_keep_all minLength _ _ [] le_rfl ?_ ?_ ?_ ?_
    · intro b hb
      obtain ⟨k, hk, he⟩ := htrans b hb
      rw [he]
      exact hKhf k hk
    · intro b hb
      obtain ⟨k, hk, he⟩ := htrans b hb
      rw [isBlankB, he]
      exact hKnb k hk
    · intro b hb hl
      simp
    · rw [hmap]
      exact hKpw
  show String.mk (joinBlocks (dedupGo minLength
      (splitBlocks (String.mk (joinBlocks (k1 :: (mid ++ [kn])))).data).length []
      (splitBlocks (String.mk (joinBlocks (k1 :: (mid ++ [kn])))).data))) =
    String.mk (joinBlocks (k1 :: (mid ++ [kn])))
  rw [show (String.mk (joinBlocks (k1 :: (mid ++ [kn])))).data =
    joinBlocks (k1 :: (mid ++ [kn])) from rfl]
  rw [hIB, hB2, hK2]
  refine congrArg String.mk ?_
  rw [joinBlocks, ← hIB, joinBlocks, trimC_join_nl]

theorem joinBlocks_dedup_fixed (minLength : Nat) (K : List (List Char))
    (hKhf : ∀ b ∈ K, isHeadingT (trimC b) = false)
    (hKnb : ∀ b ∈ K, isBlankB b = false)
    (hKNN : ∀ b ∈ K, hasNN b = false)
    (hKtl : ∀ b ∈ K.tail, startNl b = false)
    (hKdl : ∀ b ∈ K.dropLast, endNl b = false)
    (hKpw : List.Pairwise (fun s t => minLength ≤ (normalizeFp s).length →
        minLength ≤ (normalizeFp t).length → normalizeFp s ≠ normalizeFp t)
      (K.map trimC)) :
    deduplicateBlocks (String.mk (joinBlocks K)) minLength =
      String.mk (joinBlocks K) := by
  cases K with
  | nil => rfl
  | cons k1 K' =>
    cases K' with
    | nil =>
      have hnb1 : isBlankB k1 = false := hKnb k1 (by simp)
      have hNN1 : hasNN k1 = false := hKNN k1 (by simp)
      have hNNu : hasNN (trimC k1 ++ ['\n']) = false :=
        hasNN_append_nl _ (hasNN_trimC k1 hNN1) (endNl_trimC_false k1 hnb1)
      have hsu : startNl (trimC k1 ++ ['\n']) = false := by
        rw [startNl_append _ _ (trimC_ne_nil_of_nonblank k1 hnb1)]
        exact startNl_trimC_false k1 hnb1
      have hB2 : splitBlocks (trimC k1 ++ ['\n']) = [trimC k1 ++ ['\n']] := by
        have hj := splitBlocks_join [trimC k1 ++ ['\n']] (by simp)
          (by intro b hb; rw [List.mem_singleton.mp hb]; exact hNNu)
          (by intro b hb; rw [List.mem_singleton.mp hb]; simp)
          (by rw [List.headD_cons]; exact hsu)
          (by intro b hb; simp at hb)
          (by intro b hb; simp at hb)
        rw [show interBlocks [trimC k1 ++ ['\n']] = trimC k1 ++ ['\n'] from rfl] at hj
        exact hj
      have htrimCu : trimC (trimC k1 ++ ['\n']) = trimC k1 := trimC_join_nl k1
      have hK2 : dedupGo minLength 1 [] [trimC k1 ++ ['\n']] = [trimC k1 ++ ['\n']] := by
        refine dedupGo_keep_all minLength _ 1 [] (by simp) ?_ ?_ ?_ ?_
        · intro b hb
          rw [List.mem_singleton.mp hb, htrimCu]
          exact hKhf k1 (by simp)
        · intro b hb
          rw [List.mem_singleton.mp hb, isBlankB, htrimCu]
          exact hKnb k1 (by simp)
        · intro b hb hl
          simp
        · rw [List.map_cons, List.map_nil]
          exact List.pairwise_singleton _ _
      show String.mk (joinBlocks (dedupGo minLength
          (splitBlocks (String.mk (joinBlocks [k1])).data).length []
          (splitBlocks (String.mk (joinBlocks [k1])).data))) =
        String.mk (joinBlocks [k1])
      rw [show (String.mk (joinBlocks [k1])).data = joinBlocks [k1] from rfl,
        show joinBlocks [k1] = trimC k1 ++ ['\n'] from rfl, hB2,
        show ([trimC k1 ++ ['\n']] : List (List Char)).length = 1 from rfl, hK2]
      refine congrArg String.mk ?_
      rw [show joinBlocks [trimC k1 ++ ['\n']] = trimC (trimC k1 ++ ['\n']) ++ ['\n']
        from rfl, htrimCu]
    | cons k2 K'' =>
      have hne : (k2 :: K'' : List (List Char)) ≠ [] := by simp
      obtain ⟨mid, kn, hdecomp⟩ : ∃ mid kn, k2 :: K'' = mid ++ [kn] :=
        ⟨(k2 :: K'').dropLast, (k2 :: K'').getLast hne,
          (List.dropLast_append_getLast hne).symm⟩
      rw [hdecomp] at hKhf hKnb hKNN hKtl hKdl hKpw ⊢
      exact joinBlocks_dedup_fixed_core minLength k1 kn mid hKhf hKnb hKNN hKtl hKdl hKpw

/-- C5, amended: `deduplicateBlocks` is idempotent on every markdown whose
blocks contain no headings — the second application keeps every block of
the first application's output and reproduces the same string.  (The
exception forced by the counterexample: with headings, dropping a repeated
heading+content section pair can make a standalone-kept heading adjacent
to a content block, which a second pass then pairs and drops.) -/
theorem C5_dedup_idempotent_amended (md : String) (minLength : Nat)
    (hhf : ∀ b ∈ splitBlocks md.data, isHeadingT (trimC b) = false) :
    deduplicateBlocks (deduplicateBlocks md minLength) minLength =
      deduplicateBlocks md minLength := by
  obtain ⟨s1, s2, _, s4⟩ :=
    dedupGo_out minLength (splitBlocks md.data) (splitBlocks md.data).length [] le_rfl hhf
  obtain ⟨w1, w2, w3⟩ := splitBlocks_wf md.data
  show deduplicateBlocks (String.mk (joinBlocks (dedupGo minLength
      (splitBlocks md.data).length [] (splitBlocks md.data)))) minLength =
    String.mk (joinBlocks (dedupGo minLength (splitBlocks md.data).length []
      (splitBlocks md.data)))
  exact joinBlocks_dedup_fixed minLength _
    (fun b hb => hhf b (s1.subset hb))
    s2
    (fun b hb => w1 b (s1.subset hb))
    (fun b hb => w2 b (sublist_tail_mem _ _ s1 b hb))
    (fun b hb => w3 b (sublist_dropLast_mem s1 b hb))
    s4

/-- Counterexample to C5 as stated: in the input below the first pass
drops the repeated `# aaaa bbbb`+`ss` analogue pair (`# cc dd` + long
content), leaving the standalone-kept heading `# aaaa bbbb` adjacent to
the short block `ss`; the second pass pairs them, finds the compound
fingerprint already seen, and drops both, so the two outputs differ. -/
theorem C5_dedup_idempotent_counterexample :
    deduplicateBlocks
        (deduplicateBlocks
          "# cc dd\n\ncccc dddd eee\n\n# aaaa bbbb\n\nss\n\n# aaaa bbbb\n\n# cc dd\n\ncccc dddd eee\n\nss"
          DEFAULT_MIN_LENGTH) DEFAULT_MIN_LENGTH ≠
      deduplicateBlocks
        "# cc dd\n\ncccc dddd eee\n\n# aaaa bbbb\n\nss\n\n# aaaa bbbb\n\n# cc dd\n\ncccc dddd eee\n\nss"
        DEFAULT_MIN_LENGTH := by
  decide

/-- Witness for the amended C5 at a heading-free input with a repeated
long block (which the first pass removes). -/
theorem C5_dedup_idempotent_amended_witness :
    (∀ b ∈ splitBlocks ("dddd eeee ffff\n\nxx\n\ndddd eeee ffff").data,
      isHeadingT (trimC b) = false) ∧
    deduplicateBlocks (deduplicateBlocks "dddd eeee ffff\n\nxx\n\ndddd eeee ffff"
        DEFAULT_MIN_LENGTH) DEFAULT_MIN_LENGTH =
      deduplicateBlocks "dddd eeee ffff\n\nxx\n\ndddd eeee ffff" DEFAULT_MIN_LENGTH :=
  ⟨by decide, C5_dedup_idempotent_amended _ DEFAULT_MIN_LENGTH (by decide)⟩

end MD
